import Mathlib

/-!
# Verification of the mazesolve core (bitmap → rectangles → graph → shortest path)

This file gives a shallow embedding, in Lean 4, of the core of the
`mazesolve` repository (`src/math.rs`, `src/image_graph.rs`, `src/graph.rs`)
and proves or refutes the frozen claims about it.

Modelling conventions:
* Rust `i32` coordinates are modelled as `Int`; `i32` distances are modelled
  as `Int` with the `std::i32::MAX` sentinel written out as `2147483647`.
  Stored distances are bounded by the node count (hypotheses keep the node
  count below `2 ^ 31`), so `i32` overflow cannot occur in the modelled runs.
* `NodeID` (`NonZeroU32`) is modelled as `Nat`; ids are assigned `1, 2, 3, …`
  in discovery order, exactly as in the source.
* `HashMap`/`HashSet` are modelled as association lists / duplicate-free
  lists; where the Rust containers iterate in an unspecified order the model
  fixes one deterministic order (list order).  The `priority_queue` pop picks
  the earliest entry of minimal priority (ties in the Rust heap are
  unspecified; all confirmed properties proved below are independent of the
  refuting inputs' tie order, and refuted claims fail under every order).
* Code that can panic (`unwrap`, indexing a missing key) is modelled with
  `Option`/an explicit result constructor: `none`/`panicked` marks the panic.
* Grid accesses (`Grid::get`, `Grid::get_mut`) are instrumented: an access at
  an out-of-bounds position is a distinguished `oob` outcome, so that the
  absence of out-of-bounds accesses is a provable statement.
* Rust `while`/`loop` constructs are modelled by structural recursion on an
  explicit fuel; `for` loops use their exact iteration count.  Universal
  theorems quantify over the fuel (so they say nothing weaker than the
  unbounded loop), and the executable wrappers pass a fuel large enough for
  every run that terminates.
-/

/-- Planar integer vector, from `math.rs` (`V2`). -/
structure V2 where
  x : Int
  y : Int
deriving DecidableEq, Repr

/-- Vector addition, `impl Add for V2`. -/
def V2.add (a b : V2) : V2 := ⟨a.x + b.x, a.y + b.y⟩

/-- Vector subtraction, `impl Sub for V2`. -/
def V2.sub (a b : V2) : V2 := ⟨a.x - b.x, a.y - b.y⟩

/-- Half-open axis-aligned rectangle, from `math.rs` (`Rect`). -/
structure Rect where
  mins : V2
  maxs : V2
deriving DecidableEq, Repr

/-- Constructor `Rect::new`: normalizes the two corners componentwise. -/
def Rect.new (a b : V2) : Rect :=
  ⟨⟨min a.x b.x, min a.y b.y⟩, ⟨max a.x b.x, max a.y b.y⟩⟩

/-- Model of `Rect::new_unchecked` (its debug assertions have no release-mode effect). -/
def Rect.newUnchecked (mins maxs : V2) : Rect := ⟨mins, maxs⟩

/-- Width of a rectangle, `Rect::width`. -/
def Rect.width (r : Rect) : Int := r.maxs.x - r.mins.x

/-- Height of a rectangle, `Rect::height`. -/
def Rect.height (r : Rect) : Int := r.maxs.y - r.mins.y

/-- Membership test `Rect::contains`. -/
def Rect.contains (r : Rect) (p : V2) : Bool :=
  decide (p.x ≥ r.mins.x) && decide (p.y ≥ r.mins.y) &&
  decide (p.x < r.maxs.x) && decide (p.y < r.maxs.y)

theorem Rect.contains_iff (r : Rect) (p : V2) :
    r.contains p = true ↔
      r.mins.x ≤ p.x ∧ r.mins.y ≤ p.y ∧ p.x < r.maxs.x ∧ p.y < r.maxs.y := by
  simp [Rect.contains, and_assoc, ge_iff_le]

/-- Canonical unordered node pair, from `graph.rs` (`Edge`); `min ≤ max` for
edges built by `Edge::new`. -/
structure Edge where
  emin : Nat
  emax : Nat
deriving DecidableEq, Repr

/-- Constructor `Edge::new`: orders the two endpoints. -/
def Edge.new (a b : Nat) : Edge := ⟨min a b, max a b⟩

theorem Edge.new_comm (a b : Nat) : Edge.new a b = Edge.new b a := by
  simp [Edge.new, Nat.min_comm, Nat.max_comm]

/-- Shared graph data `GraphCommon<Data>`: the node payload map plus start and goal ids. -/
structure GraphCommon (Data : Type) where
  nodes : List (Nat × Data)
  start : Nat
  goal  : Nat
deriving DecidableEq, Repr

/-- Graph representation `EdgeSetGraph<Data>`: nodes plus a set of canonical edges. -/
structure EdgeSetGraph (Data : Type) where
  com   : GraphCommon Data
  edges : List Edge
deriving DecidableEq, Repr

/-- Graph representation `AdjacencyGraph<Data>`: nodes plus a map node id → neighbor set. -/
structure AdjacencyGraph (Data : Type) where
  com  : GraphCommon Data
  adjs : List (Nat × List Nat)
deriving DecidableEq, Repr

/-- Graph representation `DijkstraGraph<Data>`: payloads extended with a distance,
plus the predecessor map `paths`. -/
structure DijkstraGraph (Data : Type) where
  inner : AdjacencyGraph (Data × Int)
  paths : List (Nat × Nat)
deriving DecidableEq, Repr

/-- Constructor `EdgeSetGraph::new`. -/
def EdgeSetGraph.new {Data : Type} (nodes : List (Nat × Data)) (start goal : Nat)
    (edges : List Edge) : EdgeSetGraph Data :=
  ⟨⟨nodes, start, goal⟩, edges⟩

/-- HashMap-style insert into an association list: overwrite the existing
binding or append a fresh one. -/
def alInsert {α : Type} : List (Nat × α) → Nat → α → List (Nat × α)
  | [], k, v => [(k, v)]
  | (k₀, v₀) :: rest, k, v =>
      if k₀ = k then (k, v) :: rest else (k₀, v₀) :: alInsert rest k v

/-- HashMap-style lookup in an association list. -/
def alLookup {α : Type} : List (Nat × α) → Nat → Option α
  | [], _ => none
  | (k₀, v₀) :: rest, k => if k₀ = k then some v₀ else alLookup rest k

/-- One insertion step `adjs.entry(k).or_insert(HashSet::new()).insert(v)` from
`EdgeSetGraph::to_adjacency_graph`. -/
def adjAdd : List (Nat × List Nat) → Nat → Nat → List (Nat × List Nat)
  | [], k, v => [(k, [v])]
  | (k₀, vs) :: rest, k, v =>
      if k₀ = k then (k₀, if v ∈ vs then vs else vs ++ [v]) :: rest
      else (k₀, vs) :: adjAdd rest k v

/-- Conversion `EdgeSetGraph::to_adjacency_graph`: for every edge insert each endpoint
into the other endpoint's neighbor set.  Nodes touching no edge receive no
entry (this is what the code does; compare claim C2). -/
def EdgeSetGraph.to_adjacency_graph {Data : Type} (g : EdgeSetGraph Data) :
    AdjacencyGraph Data :=
  ⟨g.com, g.edges.foldl (fun a e => adjAdd (adjAdd a e.emin e.emax) e.emax e.emin) []⟩

/-- Degree of a node: each edge contributes to its `min` endpoint and to its
`max` endpoint, exactly as the counting loop in `EdgeSetGraph::prune`. -/
def degreeOf (edges : List Edge) (id : Nat) : Nat :=
  edges.countP (fun e => e.emin == id) + edges.countP (fun e => e.emax == id)

/-- The dead ends of one pruning round: nodes of degree `< 2` that are
neither start nor goal. -/
def deadEndsOf {Data : Type} (start goal : Nat) (nodes : List (Nat × Data))
    (edges : List Edge) : List Nat :=
  (nodes.filter (fun p =>
      decide (degreeOf edges p.1 < 2) && (p.1 != start) && (p.1 != goal))).map
    Prod.fst

/-- The `loop` of `EdgeSetGraph::prune`, with explicit fuel.  Each round
removes the dead ends and every edge touching one; the loop stops when no
dead end remains.  `g.com.nodes.length + 1` fuel always suffices because each
round removes at least one node. -/
def pruneLoop {Data : Type} (start goal : Nat) :
    Nat → List (Nat × Data) → List Edge → List (Nat × Data) × List Edge
  | 0, nodes, edges => (nodes, edges)
  | fuel + 1, nodes, edges =>
      if (deadEndsOf start goal nodes edges).isEmpty then (nodes, edges)
      else
        pruneLoop start goal fuel
          (nodes.filter (fun p =>
            !((deadEndsOf start goal nodes edges).contains p.1)))
          (edges.filter (fun e =>
            !((deadEndsOf start goal nodes edges).contains e.emin) &&
            !((deadEndsOf start goal nodes edges).contains e.emax)))

/-- Iterated dead-end removal `EdgeSetGraph::prune`. -/
def EdgeSetGraph.prune {Data : Type} (g : EdgeSetGraph Data) : EdgeSetGraph Data :=
  let r := pruneLoop g.com.start g.com.goal (g.com.nodes.length + 1) g.com.nodes g.edges
  ⟨⟨r.1, g.com.start, g.com.goal⟩, r.2⟩

/-- The `i32::MAX` sentinel used by the solver for "unknown / infinite". -/
def I32MAX : Int := 2147483647

/-- Model of `PriorityQueue::pop` on a `Reverse<i32>`-keyed queue: remove an entry of
minimal key (the earliest such entry in the model's deterministic order). -/
def popMin : List (Nat × Int) → Option ((Nat × Int) × List (Nat × Int))
  | [] => none
  | p :: rest =>
      match popMin rest with
      | none => some (p, [])
      | some (q, rest₀) => if p.2 ≤ q.2 then some (p, rest) else some (q, p :: rest₀)

/-- Model of `PriorityQueue::change_priority`: update the priority of `v` if it is
still enqueued, otherwise do nothing. -/
def changePriority : List (Nat × Int) → Nat → Int → List (Nat × Int)
  | [], _, _ => []
  | (k, pr) :: rest, v, np =>
      if k = v then (k, np) :: rest else (k, pr) :: changePriority rest v np

/-- The relaxation loop body of `AdjacencyGraph::into_dijkstra`: for each
neighbor `v` of the popped node `u`, compute
`new_dist = dists[&u].unwrap_or(0) + 1` and relax.  Indexing a key missing
from `dists` is a panic (`none`). -/
def relaxAll (u : Nat) :
    List Nat → List (Nat × Option Int) → List (Nat × Nat) → List (Nat × Int) →
    Option (List (Nat × Option Int) × List (Nat × Nat) × List (Nat × Int))
  | [], dists, paths, queue => some (dists, paths, queue)
  | v :: vs, dists, paths, queue =>
      match alLookup dists u with
      | none => none
      | some du =>
          let newDist := du.getD 0 + 1
          match alLookup dists v with
          | none => none
          | some dv =>
              if newDist < dv.getD I32MAX then
                relaxAll u vs (alInsert dists v (some newDist))
                  (alInsert paths v u) (changePriority queue v newDist)
              else relaxAll u vs dists paths queue

/-- The `while let Some((u, _)) = queue.pop()` loop of `into_dijkstra`.
`neighbors` unwraps the adjacency entry of the popped node: a missing entry
is a panic (`none`).  The fuel equals the queue length, which `pop` decreases
by exactly one, so the fuel is exact. -/
def dijkstraLoop (adjs : List (Nat × List Nat)) :
    Nat → List (Nat × Option Int) → List (Nat × Nat) → List (Nat × Int) →
    Option (List (Nat × Option Int) × List (Nat × Nat))
  | 0, dists, paths, _ => some (dists, paths)
  | fuel + 1, dists, paths, queue =>
      match popMin queue with
      | none => some (dists, paths)
      | some ((u, _), queue₀) =>
          match alLookup adjs u with
          | none => none
          | some ns =>
              match relaxAll u ns dists paths queue₀ with
              | none => none
              | some (dists₀, paths₀, queue₁) =>
                  dijkstraLoop adjs fuel dists₀ paths₀ queue₁

/-- The final payload rebuild of `into_dijkstra`: pair every node payload
with `dists[id].unwrap_or(i32::MAX)`; indexing a missing key is a panic. -/
def buildDistNodes {Data : Type} :
    List (Nat × Data) → List (Nat × Option Int) → Option (List (Nat × (Data × Int)))
  | [], _ => some []
  | (id, d) :: rest, dists =>
      match alLookup dists id with
      | none => none
      | some dv =>
          match buildDistNodes rest dists with
          | none => none
          | some r => some ((id, (d, dv.getD I32MAX)) :: r)

/-- Initial distance map of `into_dijkstra`: `Some(0)` for the start node,
`None` (unknown) for every other node. -/
def dijkstraInit {Data : Type} (ag : AdjacencyGraph Data) : List (Nat × Option Int) :=
  ag.com.nodes.map (fun p => (p.1, if p.1 = ag.com.start then some 0 else none))

/-- Initial priority queue of `into_dijkstra`: every node, keyed by its
initial distance with unknown read as `i32::MAX`. -/
def dijkstraQueueInit (dists0 : List (Nat × Option Int)) : List (Nat × Int) :=
  dists0.map (fun p => (p.1, p.2.getD I32MAX))

/-- Solver `AdjacencyGraph::into_dijkstra`; `none` models a panic during the run. -/
def AdjacencyGraph.into_dijkstra {Data : Type} (ag : AdjacencyGraph Data) :
    Option (DijkstraGraph Data) :=
  match dijkstraLoop ag.adjs (dijkstraQueueInit (dijkstraInit ag)).length
      (dijkstraInit ag) [] (dijkstraQueueInit (dijkstraInit ag)) with
  | none => none
  | some (dists, paths) =>
      match buildDistNodes ag.com.nodes dists with
      | none => none
      | some nodes =>
          some ⟨⟨⟨nodes, ag.com.start, ag.com.goal⟩, ag.adjs⟩, paths⟩

/-- Distance lookup `DijkstraGraph::distance`, made total by returning `none` where the Rust
node lookup would panic. -/
def DijkstraGraph.distance {Data : Type} (dg : DijkstraGraph Data) (id : Nat) :
    Option Int :=
  (alLookup dg.inner.com.nodes id).map Prod.snd

/-- Goal distance lookup `DijkstraGraph::goal_distance`. -/
def DijkstraGraph.goal_distance {Data : Type} (dg : DijkstraGraph Data) : Option Int :=
  dg.distance dg.inner.com.goal

/-- Cell state of the grid, from `image_graph.rs` (`GridSquare`). -/
inductive GridSquare where
  | Clear : GridSquare
  | Wall : GridSquare
  | Covered : Nat → GridSquare
deriving DecidableEq, Repr

/-- Dense cell grid, from `image_graph.rs` (`Grid`); row-major storage.  The
length invariant is the one `Grid::new_from_image` establishes. -/
structure Grid where
  squares : List GridSquare
  gwidth  : Nat
  gheight : Nat
  hlen    : squares.length = gwidth * gheight

/-- Decoded grayscale bitmap (the `im::GrayImage` input), row-major `u8`
luma values. -/
structure Image where
  iwidth  : Nat
  iheight : Nat
  pixels  : List Nat
  hlen    : pixels.length = iwidth * iheight

/-- Grid construction `Grid::new_from_image`: a pixel equal to the `WHITE`
sentinel (255) becomes `Clear`, anything else `Wall`. -/
def Grid.new_from_image (im : Image) : Grid :=
  ⟨im.pixels.map (fun p => if p = 255 then GridSquare.Clear else GridSquare.Wall),
    im.iwidth, im.iheight, by rw [List.length_map, im.hlen]⟩

/-- Bounds test `Grid::in_bounds`. -/
def Grid.in_bounds (g : Grid) (p : V2) : Bool :=
  (Rect.newUnchecked ⟨0, 0⟩ ⟨(g.gwidth : Int), (g.gheight : Int)⟩).contains p

/-- Instrumented `Grid::get`: `none` marks an access at an out-of-bounds
position (in Rust an out-of-range or silently wrapped `Vec` index). -/
def Grid.get? (g : Grid) (p : V2) : Option GridSquare :=
  if g.in_bounds p then
    some (g.squares.getD (p.y.toNat * g.gwidth + p.x.toNat) GridSquare.Wall)
  else none

/-- In-bounds read, used to model `Grid::get` calls that directly follow an
`in_bounds` check in the source. -/
def Grid.getIB (g : Grid) (p : V2) : GridSquare :=
  g.squares.getD (p.y.toNat * g.gwidth + p.x.toNat) GridSquare.Wall

/-- Instrumented `Grid::get_mut` assignment: write a square, `none` on an
out-of-bounds position. -/
def Grid.set? (g : Grid) (p : V2) (s : GridSquare) : Option Grid :=
  if g.in_bounds p then
    some ⟨g.squares.set (p.y.toNat * g.gwidth + p.x.toNat) s, g.gwidth, g.gheight,
      by rw [List.length_set, g.hlen]⟩
  else none

/-- The first `loop` of `grow_rect`: extend `mins.x` leftwards while the
probe cell in the seed's row stays in bounds and `Clear`. -/
def growLeft (g : Grid) (seedy : Int) : Nat → Int → Int
  | 0, minsx => minsx
  | fuel + 1, minsx =>
      let pos : V2 := ⟨minsx - 1, seedy⟩
      if g.in_bounds pos && (g.getIB pos == GridSquare.Clear) then
        growLeft g seedy fuel (minsx - 1)
      else minsx

/-- The second `loop` of `grow_rect`: extend `maxs.x` rightwards the same way. -/
def growRight (g : Grid) (seedy : Int) : Nat → Int → Int
  | 0, maxsx => maxsx
  | fuel + 1, maxsx =>
      let pos : V2 := ⟨maxsx, seedy⟩
      if g.in_bounds pos && (g.getIB pos == GridSquare.Clear) then
        growRight g seedy fuel (maxsx + 1)
      else maxsx

/-- The `for x in mins.x .. maxs.x` scan inside the `ymin`/`ymax` loops of
`grow_rect`: `some true` if every cell of the row stretch is `Clear`,
`some false` at the first non-`Clear` cell, `none` if a probed cell is out
of bounds (these reads are unguarded in the source). -/
def rowClear (g : Grid) (y : Int) : Nat → Int → Option Bool
  | 0, _ => some true
  | n + 1, x =>
      match g.get? ⟨x, y⟩ with
      | none => none
      | some s => if s = GridSquare.Clear then rowClear g y n (x + 1) else some false

/-- The `'ymin_loop` of `grow_rect`: absorb the row above while it is fully
`Clear`; the bounds check probes `(mins.x, y)` only. -/
def growYmin (g : Grid) (minsx maxsx : Int) : Nat → Int → Option Int
  | 0, minsy => some minsy
  | fuel + 1, minsy =>
      let y := minsy - 1
      if g.in_bounds ⟨minsx, y⟩ then
        match rowClear g y (maxsx - minsx).toNat minsx with
        | none => none
        | some true => growYmin g minsx maxsx fuel (minsy - 1)
        | some false => some minsy
      else some minsy

/-- The `'ymax_loop` of `grow_rect`: absorb the row below while it is fully
`Clear`; the bounds check probes `(mins.x, maxs.y)` only. -/
def growYmax (g : Grid) (minsx maxsx : Int) : Nat → Int → Option Int
  | 0, maxsy => some maxsy
  | fuel + 1, maxsy =>
      if g.in_bounds ⟨minsx, maxsy⟩ then
        match rowClear g maxsy (maxsx - minsx).toNat minsx with
        | none => none
        | some true => growYmax g minsx maxsx fuel (maxsy + 1)
        | some false => some maxsy
      else some maxsy

/-- Seeded rectangle growth `grow_rect`: extend left, right, up, down in that
fixed order.  The fuel passed to each directional loop covers the entire
grid, so it never cuts a loop short on an in-bounds seed. -/
def grow_rect (g : Grid) (seed : V2) : Option Rect :=
  match growYmin g (growLeft g seed.y (seed.x.toNat + 1) seed.x)
      (growRight g seed.y (g.gwidth + 1) (seed.x + 1)) (seed.y.toNat + 1) seed.y with
  | none => none
  | some minsy =>
      match growYmax g (growLeft g seed.y (seed.x.toNat + 1) seed.x)
          (growRight g seed.y (g.gwidth + 1) (seed.x + 1)) (g.gheight + 1)
          (seed.y + 1) with
      | none => none
      | some maxsy =>
          some (Rect.new ⟨growLeft g seed.y (seed.x.toNat + 1) seed.x, minsy⟩
            ⟨growRight g seed.y (g.gwidth + 1) (seed.x + 1), maxsy⟩)

/-- Set insertion into the `HashSet<Edge>` (model: duplicate-free list). -/
def edgeInsert (edges : List Edge) (e : Edge) : List Edge :=
  if e ∈ edges then edges else edges ++ [e]

/-- Run finalization of `scan_edge`: the `match prev_square` arms, executed
on every state change and once after the strip ends.  A `Covered` run records
an edge; a `Clear` run enqueues the last cell of the run (`pos - step`). -/
def finalizeRun (queue : List V2) (edges : List Edge) (id : Nat)
    (prev : GridSquare) (pos step : V2) : List V2 × List Edge :=
  match prev with
  | GridSquare.Covered pid => (queue, edgeInsert edges (Edge.new id pid))
  | GridSquare.Clear => (queue ++ [pos.sub step], edges)
  | GridSquare.Wall => (queue, edges)

/-- The `for _ in 0 .. count` loop of `scan_edge`; every grid read is guarded
by the `in_bounds` break, so this loop cannot fault.  Returns the updated
queue and edge set together with the final `pos` and `prev_square`. -/
def scanEdgeLoop (g : Grid) (id : Nat) (step : V2) :
    Nat → List V2 → List Edge → V2 → GridSquare →
    (List V2 × List Edge) × V2 × GridSquare
  | 0, queue, edges, pos, prev => ((queue, edges), pos, prev)
  | n + 1, queue, edges, pos, prev =>
      if g.in_bounds pos then
        if g.getIB pos ≠ prev then
          scanEdgeLoop g id step n (finalizeRun queue edges id prev pos step).1
            (finalizeRun queue edges id prev pos step).2 (pos.add step) (g.getIB pos)
        else scanEdgeLoop g id step n queue edges (pos.add step) prev
      else ((queue, edges), pos, prev)

/-- Boundary strip scan `scan_edge`: walk `count` cells from `start` along
`step`, finalizing each run of equal cell states, plus the trailing run. -/
def scan_edge (g : Grid) (queue : List V2) (edges : List Edge) (id : Nat)
    (start step : V2) (count : Int) : List V2 × List Edge :=
  finalizeRun (scanEdgeLoop g id step count.toNat queue edges start GridSquare.Wall).1.1
    (scanEdgeLoop g id step count.toNat queue edges start GridSquare.Wall).1.2 id
    (scanEdgeLoop g id step count.toNat queue edges start GridSquare.Wall).2.2
    (scanEdgeLoop g id step count.toNat queue edges start GridSquare.Wall).2.1 step

/-- Four-sided boundary scan `scan_rect_boundary`: the strips above, below,
left and right of the rectangle, in source order. -/
def scan_rect_boundary (g : Grid) (queue : List V2) (edges : List Edge)
    (id : Nat) (rect : Rect) : List V2 × List Edge :=
  let r1 := scan_edge g queue edges id ⟨rect.mins.x, rect.mins.y - 1⟩ ⟨1, 0⟩ rect.width
  let r2 := scan_edge g r1.1 r1.2 id ⟨rect.mins.x, rect.maxs.y⟩ ⟨1, 0⟩ rect.width
  let r3 := scan_edge g r2.1 r2.2 id ⟨rect.mins.x - 1, rect.mins.y⟩ ⟨0, 1⟩ rect.height
  scan_edge g r3.1 r3.2 id ⟨rect.maxs.x, rect.mins.y⟩ ⟨0, 1⟩ rect.height

/-- The inner `for x` loop of the claiming step of `extract_graph`: set every
cell of one row stretch to `Covered(id)`; the writes are unguarded in the
source, so an out-of-bounds write faults. -/
def claimRow (id : Nat) (y : Int) : Nat → Int → Grid → Option Grid
  | 0, _, g => some g
  | n + 1, x, g =>
      match g.set? ⟨x, y⟩ (GridSquare.Covered id) with
      | none => none
      | some g₀ => claimRow id y n (x + 1) g₀

/-- The claiming loops of `extract_graph`: cover the whole grown rectangle. -/
def claimRect (id : Nat) (r : Rect) : Nat → Int → Grid → Option Grid
  | 0, _, g => some g
  | n + 1, y, g =>
      match claimRow id y (r.width).toNat r.mins.x g with
      | none => none
      | some g₀ => claimRect id r n (y + 1) g₀

/-- Outcome of a run of `extract_graph`: a normal return of the Rust
`Option<EdgeSetGraph<Rect>>` value, a panic (the `unwrap` of a missing
start/goal id), an out-of-bounds grid access, or fuel exhaustion of the
model's bounded recursion. -/
inductive ExtractResult where
  | ret : Option (EdgeSetGraph Rect) → ExtractResult
  | panicked : ExtractResult
  | oob : ExtractResult
  | fuelOut : ExtractResult
deriving DecidableEq, Repr

/-- The `while let Some(seed) = queue.pop_front()` loop of `extract_graph`:
skip non-`Clear` seeds; otherwise grow a rectangle, claim its cells, scan its
boundary, record it, and note whether it contains the start or goal cell.
After the loop the two recorded ids are unwrapped. -/
def extractLoop (startC goalC : V2) :
    Nat → Grid → List (Nat × Rect) → List Edge → List V2 → Nat →
    Option Nat → Option Nat → ExtractResult
  | 0, _, _, _, _, _, _, _ => ExtractResult.fuelOut
  | fuel + 1, grid, nodes, edges, queue, id, startId, goalId =>
      match queue with
      | [] =>
          match startId, goalId with
          | some s, some t => ExtractResult.ret (some (EdgeSetGraph.new nodes s t edges))
          | some _, none => ExtractResult.panicked
          | none, _ => ExtractResult.panicked
      | seed :: queue₀ =>
          match grid.get? seed with
          | none => ExtractResult.oob
          | some sq =>
              if sq ≠ GridSquare.Clear then
                extractLoop startC goalC fuel grid nodes edges queue₀ id startId goalId
              else
                match grow_rect grid seed with
                | none => ExtractResult.oob
                | some rect =>
                    match claimRect id rect (rect.height).toNat rect.mins.y grid with
                    | none => ExtractResult.oob
                    | some grid₀ =>
                        extractLoop startC goalC fuel grid₀ (nodes ++ [(id, rect)])
                          (scan_rect_boundary grid₀ queue₀ edges id rect).2
                          (scan_rect_boundary grid₀ queue₀ edges id rect).1 (id + 1)
                          (if rect.contains startC then some id else startId)
                          (if rect.contains goalC then some id else goalId)

/-- Number of `Clear` cells of a grid; used only to size the fuel of the
extraction loop (each claimed rectangle converts at least one `Clear` cell). -/
def clearCount (g : Grid) : Nat :=
  g.squares.countP (fun s => s == GridSquare.Clear)

/-- Fuel that covers every terminating run of the extraction loop: every
iteration either consumes a queued seed or claims a rectangle, and each
claimed rectangle enqueues at most one seed per boundary cell. -/
def extractFuel (g : Grid) : Nat :=
  (clearCount g + 1) * (2 * g.gwidth + 2 * g.gheight + 5) + 2

/-- Rectangle decomposition `extract_graph`. -/
def extract_graph (im : Image) (start goal : V2) : ExtractResult :=
  let grid := Grid.new_from_image im
  extractLoop start goal (extractFuel grid) grid [] [] [start] 1 none none

/-- A walk in a graph given by the relation `A`: a nonempty vertex list whose
consecutive vertices are adjacent, starting at `a` and ending at `b`. -/
def IsWalk (A : Nat → Nat → Prop) (a b : Nat) (l : List Nat) : Prop :=
  l.Chain' A ∧ l.head? = some a ∧ l.getLast? = some b

/-- The number of edges of a shortest walk from `a` to `b` is `n` (a walk of
`n` edges has `n + 1` vertices). -/
def ShortestLen (A : Nat → Nat → Prop) (a b : Nat) (n : Nat) : Prop :=
  (∃ l, IsWalk A a b l ∧ l.length = n + 1) ∧ ∀ l, IsWalk A a b l → n + 1 ≤ l.length

/-- The adjacency relation read off an adjacency map: `b` lies in the
neighbor entry of `a` (an absent entry reads as the empty set). -/
def agAdj (adjs : List (Nat × List Nat)) (a b : Nat) : Prop :=
  b ∈ (alLookup adjs a).getD []

/-- The adjacency relation read off an edge set via canonical pairs. -/
def edgeAdj (edges : List Edge) (a b : Nat) : Prop :=
  Edge.new a b ∈ edges

instance (adjs : List (Nat × List Nat)) (a b : Nat) : Decidable (agAdj adjs a b) := by
  unfold agAdj; infer_instance

instance (edges : List Edge) (a b : Nat) : Decidable (edgeAdj edges a b) := by
  unfold edgeAdj; infer_instance


theorem alLookup_mem {α : Type} {l : List (Nat × α)} {k : Nat} {v : α}
    (h : alLookup l k = some v) : (k, v) ∈ l := by
  induction l with
  | nil => simp [alLookup] at h
  | cons p rest ih =>
    obtain ⟨k₀, v₀⟩ := p
    rw [alLookup] at h
    by_cases hk : k₀ = k
    · rw [if_pos hk] at h
      subst hk
      injection h with h
      subst h
      exact List.mem_cons_self _ _
    · rw [if_neg hk] at h
      exact List.mem_cons_of_mem _ (ih h)

theorem alLookup_isSome_iff {α : Type} (l : List (Nat × α)) (k : Nat) :
    (alLookup l k).isSome = true ↔ k ∈ l.map Prod.fst := by
  induction l with
  | nil => simp [alLookup]
  | cons p rest ih =>
    obtain ⟨k₀, v₀⟩ := p
    rw [alLookup]
    by_cases hk : k₀ = k
    · simp [hk]
    · simp [hk, ih, Ne.symm hk]

theorem alInsert_map_fst_of_mem {α : Type} {l : List (Nat × α)} {k : Nat} (v : α)
    (h : k ∈ l.map Prod.fst) : (alInsert l k v).map Prod.fst = l.map Prod.fst := by
  induction l with
  | nil => simp at h
  | cons p rest ih =>
    obtain ⟨k₀, v₀⟩ := p
    rw [alInsert]
    by_cases hk : k₀ = k
    · subst hk; simp
    · rw [if_neg hk]
      simp only [List.map_cons] at h ⊢
      have h₂ : k ∈ rest.map Prod.fst := by
        rcases List.mem_cons.mp h with h₁ | h₁
        · exact absurd h₁.symm hk
        · exact h₁
      rw [ih h₂]

theorem alLookup_alInsert_self {α : Type} (l : List (Nat × α)) (k : Nat) (v : α) :
    alLookup (alInsert l k v) k = some v := by
  induction l with
  | nil => simp [alInsert, alLookup]
  | cons p rest ih =>
    obtain ⟨k₀, v₀⟩ := p
    rw [alInsert]
    by_cases hk : k₀ = k
    · rw [if_pos hk, alLookup, if_pos rfl]
    · rw [if_neg hk, alLookup, if_neg hk]
      exact ih

theorem alLookup_alInsert_ne {α : Type} (l : List (Nat × α)) (k a : Nat) (v : α)
    (hne : a ≠ k) : alLookup (alInsert l k v) a = alLookup l a := by
  induction l with
  | nil => simp [alInsert, alLookup, Ne.symm hne]
  | cons p rest ih =>
    obtain ⟨k₀, v₀⟩ := p
    rw [alInsert]
    by_cases hk : k₀ = k
    · subst hk
      rw [if_pos rfl, alLookup, alLookup, if_neg (fun hc => hne hc.symm),
        if_neg (fun hc => hne hc.symm)]
    · rw [if_neg hk, alLookup, alLookup]
      by_cases ha : k₀ = a
      · rw [if_pos ha, if_pos ha]
      · rw [if_neg ha, if_neg ha]
        exact ih

theorem changePriority_map_fst (q : List (Nat × Int)) (v : Nat) (np : Int) :
    (changePriority q v np).map Prod.fst = q.map Prod.fst := by
  induction q with
  | nil => simp [changePriority]
  | cons p rest ih =>
    obtain ⟨k, pr⟩ := p
    rw [changePriority]
    by_cases hk : k = v
    · subst hk; simp
    · rw [if_neg hk]
      simp only [List.map_cons]
      rw [ih]

theorem popMin_none_iff (q : List (Nat × Int)) : popMin q = none ↔ q = [] := by
  cases q with
  | nil => simp [popMin]
  | cons a rest =>
    simp only [popMin]
    cases hr : popMin rest with
    | none => simp
    | some r => obtain ⟨q₁, rest₁⟩ := r; by_cases h : a.2 ≤ q₁.2 <;> simp [h]

theorem popMin_perm {q : List (Nat × Int)} {p : Nat × Int} {q₀ : List (Nat × Int)}
    (h : popMin q = some (p, q₀)) : q.Perm (p :: q₀) := by
  induction q generalizing p q₀ with
  | nil => simp [popMin] at h
  | cons a rest ih =>
    rw [popMin] at h
    cases hr : popMin rest with
    | none =>
      rw [hr] at h
      have hre : rest = [] := (popMin_none_iff rest).mp hr
      subst hre
      simp at h
      obtain ⟨rfl, rfl⟩ := h
      exact List.Perm.refl _
    | some r =>
      obtain ⟨q₁, rest₁⟩ := r
      rw [hr] at h
      simp only at h
      by_cases hle : a.2 ≤ q₁.2
      · rw [if_pos hle] at h
        simp at h
        obtain ⟨rfl, rfl⟩ := h
        exact List.Perm.refl _
      · rw [if_neg hle] at h
        simp at h
        obtain ⟨rfl, rfl⟩ := h
        exact ((ih hr).cons a).trans (List.Perm.swap _ _ _)

theorem popMin_min {q : List (Nat × Int)} {p : Nat × Int} {q₀ : List (Nat × Int)}
    (h : popMin q = some (p, q₀)) : ∀ e ∈ q, p.2 ≤ e.2 := by
  induction q generalizing p q₀ with
  | nil => simp [popMin] at h
  | cons a rest ih =>
    rw [popMin] at h
    cases hr : popMin rest with
    | none =>
      rw [hr] at h
      have hre : rest = [] := (popMin_none_iff rest).mp hr
      subst hre
      simp at h
      obtain ⟨rfl, rfl⟩ := h
      intro e he
      simp at he
      simp [he]
    | some r =>
      obtain ⟨q₁, rest₁⟩ := r
      rw [hr] at h
      simp only at h
      by_cases hle : a.2 ≤ q₁.2
      · rw [if_pos hle] at h
        simp at h
        obtain ⟨rfl, rfl⟩ := h
        intro e he
        rcases List.mem_cons.mp he with rfl | he
        · exact le_refl _
        · exact le_trans hle (ih hr e he)
      · rw [if_neg hle] at h
        simp at h
        obtain ⟨rfl, rfl⟩ := h
        intro e he
        rcases List.mem_cons.mp he with rfl | he
        · exact le_of_lt (lt_of_not_le hle)
        · exact ih hr e he

theorem extractLoop_ne_ret_none (startC goalC : V2) :
    ∀ (fuel : Nat) (grid : Grid) (nodes : List (Nat × Rect)) (edges : List Edge)
      (queue : List V2) (id : Nat) (sId gId : Option Nat),
      extractLoop startC goalC fuel grid nodes edges queue id sId gId ≠
        ExtractResult.ret none := by
  intro fuel
  induction fuel with
  | zero =>
    intro grid nodes edges queue id sId gId
    simp [extractLoop]
  | succ n ih =>
    intro grid nodes edges queue id sId gId
    cases queue with
    | nil =>
      cases sId with
      | none => simp [extractLoop]
      | some s =>
        cases gId with
        | none => simp [extractLoop]
        | some t => simp [extractLoop, EdgeSetGraph.new]
    | cons seed rest =>
      rw [extractLoop]
      split
      · simp
      · split
        · apply ih
        · split
          · simp
          · split
            · simp
            · apply ih

/-- C1 (amended): whenever `extract_graph` returns at all, its `Option`
result carries a graph — the function never returns `None`; a start or goal
cell that is never covered makes it panic (`unwrap` of a missing id) instead
of reporting the no-path outcome through the `Option`. -/
theorem C1_extract_graph_never_returns_None (im : Image) (start goal : V2) :
    extract_graph im start goal ≠ ExtractResult.ret none :=
  extractLoop_ne_ret_none start goal _ _ _ _ _ _ _ _

/-- One-pixel all-black image: its start cell is a `Wall`, so no rectangle
ever covers the start. -/
def imgC1 : Image := ⟨1, 1, [0], rfl⟩

/-- C1 counterexample: on a bitmap whose start cell is a Wall (hence never
covered by any rectangle) `extract_graph` panics instead of returning `None`
as the claim states. -/
theorem C1_counterexample_wall_start_panics :
    extract_graph imgC1 ⟨0, 0⟩ ⟨0, 0⟩ = ExtractResult.panicked ∧
    extract_graph imgC1 ⟨0, 0⟩ ⟨0, 0⟩ ≠ ExtractResult.ret none := by
  exact ⟨by decide, by decide⟩

/-- One-node, zero-edge edge-set graph (node 1 is both start and goal). -/
def gC2 : EdgeSetGraph Rect := ⟨⟨[(1, ⟨⟨0, 0⟩, ⟨1, 1⟩⟩)], 1, 1⟩, []⟩

/-- C2 (code bug): `to_adjacency_graph` gives a node with no incident edge no
entry at all in the adjacency map — on this one-node, zero-edge graph the
adjacency map is empty and the lookup that `neighbors` unwraps yields `None`
(a panic), contradicting the claimed invariant that every node has a
(possibly empty) entry. -/
theorem C2_isolated_node_has_no_adjacency_entry :
    gC2.com.nodes.map Prod.fst = [1] ∧
    (EdgeSetGraph.to_adjacency_graph gC2).adjs = [] ∧
    alLookup (EdgeSetGraph.to_adjacency_graph gC2).adjs 1 = none := by
  exact ⟨rfl, rfl, rfl⟩

/-- Two-by-two all-white image: one open room that contains both the start
cell (0,0) and the goal cell (1,1). -/
def imgC4 : Image := ⟨2, 2, [255, 255, 255, 255], rfl⟩

/-- The graph that `extract_graph` produces for `imgC4`: one node carrying
the full-grid rectangle, no edges. -/
def gC4 : EdgeSetGraph Rect := ⟨⟨[(1, ⟨⟨0, 0⟩, ⟨2, 2⟩⟩)], 1, 1⟩, []⟩

/-- C4 (code bug): on an open room (2×2 all-white bitmap, start (0,0), goal
(1,1)) extraction does yield exactly 1 node and 0 edges, but the rest of the
pipeline then panics inside `into_dijkstra` — the isolated node has no
adjacency entry and `neighbors` unwraps it — instead of reporting
`goal_distance() = 0` as the scenario claims. -/
theorem C4_open_room_pipeline_panics :
    extract_graph imgC4 ⟨0, 0⟩ ⟨1, 1⟩ = ExtractResult.ret (some gC4) ∧
    gC4.com.nodes.length = 1 ∧ gC4.edges.length = 0 ∧
    (gC4.prune.to_adjacency_graph).into_dijkstra = none := by
  exact ⟨by decide, rfl, rfl, by decide⟩

/-- Adjacency graph whose goal node 3 is disconnected from the start node 1:
node 1 is isolated (with an explicit empty neighbor entry), nodes 2 and 3 are
joined by an edge. -/
def agC3 : AdjacencyGraph Nat :=
  ⟨⟨[(1, 10), (2, 20), (3, 30)], 1, 3⟩, [(1, []), (2, [3]), (3, [2])]⟩

/-- C3 counterexample: the goal of `agC3` is unreachable from the start, and
the solver does terminate — but `goal_distance` comes back as the finite
value 1 (an unreachable node popped with unknown distance propagates
`0 + 1` to its neighbors), not as the infinite/unknown sentinel `i32::MAX`.
This happens for every pop order among the equal-priority unreached nodes:
whichever of nodes 2 and 3 pops first hands the other a finite distance. -/
theorem C3_counterexample_unreachable_goal_finite :
    (¬ ∃ l, IsWalk (agAdj agC3.adjs) agC3.com.start agC3.com.goal l) ∧
    (agC3.into_dijkstra).map (fun dg => dg.goal_distance) = some (some 1) ∧
    (1 : Int) ≠ I32MAX := by
  refine ⟨?_, by decide, by decide⟩
  rintro ⟨l, hchain, hhead, hlast⟩
  simp only [agC3] at hhead hlast
  cases l with
  | nil => simp at hhead
  | cons x rest =>
    rw [List.head?_cons] at hhead
    injection hhead with hx
    subst hx
    cases rest with
    | nil =>
      rw [List.getLast?_singleton] at hlast
      injection hlast with hl
      exact absurd hl (by decide)
    | cons y rest₂ =>
      have hadj : agAdj agC3.adjs agC3.com.start y :=
        (List.chain'_cons.mp hchain).1
      simp [agAdj, agC3, alLookup] at hadj

/-- Wellformedness of an adjacency graph, as assumed by the solver: every
node has an adjacency entry, and every listed neighbor is a node.  (These are
exactly the lookups that `into_dijkstra` indexes and unwraps.) -/
def AdjacencyWF {Data : Type} (ag : AdjacencyGraph Data) : Prop :=
  (∀ id ∈ ag.com.nodes.map Prod.fst, (alLookup ag.adjs id).isSome = true) ∧
  (∀ p ∈ ag.adjs, ∀ v ∈ p.2, v ∈ ag.com.nodes.map Prod.fst)

instance {Data : Type} (ag : AdjacencyGraph Data) : Decidable (AdjacencyWF ag) := by
  unfold AdjacencyWF; infer_instance

theorem relaxAll_some (u : Nat) :
    ∀ (ns : List Nat) (dists : List (Nat × Option Int)) (paths : List (Nat × Nat))
      (queue : List (Nat × Int)),
      u ∈ dists.map Prod.fst → (∀ v ∈ ns, v ∈ dists.map Prod.fst) →
      ∃ out, relaxAll u ns dists paths queue = some out ∧
        out.1.map Prod.fst = dists.map Prod.fst ∧
        out.2.2.map Prod.fst = queue.map Prod.fst := by
  intro ns
  induction ns with
  | nil =>
    intro dists paths queue hu hns
    exact ⟨(dists, paths, queue), rfl, rfl, rfl⟩
  | cons v vs ih =>
    intro dists paths queue hu hns
    have hu₂ : (alLookup dists u).isSome = true := (alLookup_isSome_iff _ _).mpr hu
    have hv₂ : (alLookup dists v).isSome = true :=
      (alLookup_isSome_iff _ _).mpr (hns v (List.mem_cons_self _ _))
    rw [relaxAll]
    obtain ⟨du, hdu⟩ := Option.isSome_iff_exists.mp hu₂
    obtain ⟨dv, hdv⟩ := Option.isSome_iff_exists.mp hv₂
    rw [hdu, hdv]
    simp only
    by_cases hlt : du.getD 0 + 1 < dv.getD I32MAX
    · rw [if_pos hlt]
      have hkeys : (alInsert dists v (some (du.getD 0 + 1))).map Prod.fst =
          dists.map Prod.fst :=
        alInsert_map_fst_of_mem _ (hns v (List.mem_cons_self _ _))
      obtain ⟨out, hout, hk1, hk2⟩ :=
        ih (alInsert dists v (some (du.getD 0 + 1))) (alInsert paths v u)
          (changePriority queue v (du.getD 0 + 1))
          (by rw [hkeys]; exact hu)
          (by rw [hkeys]; exact fun w hw => hns w (List.mem_cons_of_mem _ hw))
      exact ⟨out, hout, by rw [hk1, hkeys],
        by rw [hk2, changePriority_map_fst]⟩
    · rw [if_neg hlt]
      exact ih dists paths queue hu (fun w hw => hns w (List.mem_cons_of_mem _ hw))

theorem dijkstraLoop_some (adjs : List (Nat × List Nat)) (N : List Nat)
    (hadj : ∀ id ∈ N, (alLookup adjs id).isSome = true)
    (hns : ∀ p ∈ adjs, ∀ v ∈ p.2, v ∈ N) :
    ∀ (fuel : Nat) (dists : List (Nat × Option Int)) (paths : List (Nat × Nat))
      (queue : List (Nat × Int)),
      dists.map Prod.fst = N → (∀ e ∈ queue, e.1 ∈ N) →
      ∃ out, dijkstraLoop adjs fuel dists paths queue = some out ∧
        out.1.map Prod.fst = N := by
  intro fuel
  induction fuel with
  | zero =>
    intro dists paths queue hkeys hq
    exact ⟨(dists, paths), rfl, hkeys⟩
  | succ n ih =>
    intro dists paths queue hkeys hq
    rw [dijkstraLoop]
    cases hpop : popMin queue with
    | none => exact ⟨(dists, paths), rfl, hkeys⟩
    | some r =>
      obtain ⟨⟨u, k⟩, queue₀⟩ := r
      have hperm := popMin_perm hpop
      have humem : (u, k) ∈ queue := hperm.mem_iff.mpr (List.mem_cons_self _ _)
      have huN : u ∈ N := hq _ humem
      obtain ⟨ns, hlk⟩ := Option.isSome_iff_exists.mp (hadj u huN)
      simp only [hlk]
      have hnsN : ∀ v ∈ ns, v ∈ N := hns (u, ns) (alLookup_mem hlk)
      obtain ⟨⟨dists₀, paths₀, queue₁⟩, hrelax, hk1, hk2⟩ :=
        relaxAll_some u ns dists paths queue₀ (hkeys ▸ huN)
          (fun v hv => hkeys ▸ hnsN v hv)
      simp only [hrelax]
      apply ih dists₀ paths₀ queue₁ (by rw [hk1, hkeys])
      intro e he
      have : e.1 ∈ queue₁.map Prod.fst := List.mem_map_of_mem _ he
      rw [hk2] at this
      obtain ⟨e₀, he₀, hfst⟩ := List.mem_map.mp this
      exact hfst ▸ hq e₀ (hperm.mem_iff.mpr (List.mem_cons_of_mem _ he₀))

theorem buildDistNodes_some {Data : Type} :
    ∀ (nodes : List (Nat × Data)) (dists : List (Nat × Option Int)),
      (∀ id ∈ nodes.map Prod.fst, id ∈ dists.map Prod.fst) →
      ∃ r, buildDistNodes nodes dists = some r := by
  intro nodes
  induction nodes with
  | nil => intro dists h; exact ⟨[], rfl⟩
  | cons p rest ih =>
    intro dists h
    obtain ⟨id, d⟩ := p
    rw [buildDistNodes]
    have : (alLookup dists id).isSome = true :=
      (alLookup_isSome_iff _ _).mpr (h id (by simp))
    obtain ⟨dv, hdv⟩ := Option.isSome_iff_exists.mp this
    rw [hdv]
    obtain ⟨r, hr⟩ := ih dists (fun i hi => h i (List.mem_cons_of_mem _ hi))
    rw [hr]
    exact ⟨_, rfl⟩

/-- C3 (amended): for every wellformed adjacency graph the solver terminates
and returns a distance-annotated graph (the queue drains in exactly one pop
per node and no lookup panics).  The unreachable-goal half of the original
claim is refuted by `C3_counterexample_unreachable_goal_finite`: the goal
distance of an unreachable goal need not be the sentinel. -/
theorem C3_into_dijkstra_terminates {Data : Type} (ag : AdjacencyGraph Data)
    (hwf : AdjacencyWF ag) : ∃ dg, ag.into_dijkstra = some dg := by
  obtain ⟨hadj, hns⟩ := hwf
  have hkeys0 : (dijkstraInit ag).map Prod.fst = ag.com.nodes.map Prod.fst := by
    rw [dijkstraInit, List.map_map]
    rfl
  have hq0mem : ∀ e ∈ dijkstraQueueInit (dijkstraInit ag),
      e.1 ∈ ag.com.nodes.map Prod.fst := by
    intro e he
    obtain ⟨p, hp, hpe⟩ := List.mem_map.mp he
    have hmem : p.1 ∈ (dijkstraInit ag).map Prod.fst := List.mem_map_of_mem _ hp
    rw [hkeys0] at hmem
    rw [← hpe]
    exact hmem
  obtain ⟨⟨dists, paths⟩, hloop, hkeys⟩ :=
    dijkstraLoop_some ag.adjs (ag.com.nodes.map Prod.fst) hadj hns
      (dijkstraQueueInit (dijkstraInit ag)).length (dijkstraInit ag) []
      (dijkstraQueueInit (dijkstraInit ag)) hkeys0 hq0mem
  obtain ⟨r, hr⟩ := buildDistNodes_some ag.com.nodes dists
    (fun id hid => by rw [hkeys]; exact hid)
  rw [AdjacencyGraph.into_dijkstra]
  simp only [hloop, hr]
  exact ⟨_, rfl⟩

/-- C3 witness: the termination theorem applied to the concrete wellformed
graph `agC3`. -/
theorem C3_witness_terminates : ∃ dg, agC3.into_dijkstra = some dg :=
  C3_into_dijkstra_terminates agC3 (by decide)

theorem buildDistNodes_strip {Data : Type} :
    ∀ (nodes : List (Nat × Data)) (dists : List (Nat × Option Int))
      (r : List (Nat × (Data × Int))),
      buildDistNodes nodes dists = some r →
      r.map (fun p => (p.1, p.2.1)) = nodes := by
  intro nodes
  induction nodes with
  | nil =>
    intro dists r h
    rw [buildDistNodes] at h
    injection h with h
    subst h
    rfl
  | cons p rest ih =>
    intro dists r h
    obtain ⟨id, d⟩ := p
    rw [buildDistNodes] at h
    cases hdv : alLookup dists id with
    | none => rw [hdv] at h; cases h
    | some dv =>
      rw [hdv] at h
      cases hb : buildDistNodes rest dists with
      | none => rw [hb] at h; cases h
      | some r₀ =>
        rw [hb] at h
        injection h with h
        subst h
        simp only [List.map_cons]
        rw [ih dists r₀ hb]

/-- C10: the solver only annotates — whenever `into_dijkstra` returns, the
output graph has the same start id, the same goal id, the same adjacency
map, and node-for-node the same payload map as the input: stripping the
added distance from every payload recovers the input node map exactly. -/
theorem C10_into_dijkstra_frame {Data : Type} (ag : AdjacencyGraph Data)
    (dg : DijkstraGraph Data) (h : ag.into_dijkstra = some dg) :
    dg.inner.com.start = ag.com.start ∧ dg.inner.com.goal = ag.com.goal ∧
    dg.inner.adjs = ag.adjs ∧
    dg.inner.com.nodes.map (fun p => (p.1, p.2.1)) = ag.com.nodes := by
  rw [AdjacencyGraph.into_dijkstra] at h
  cases hl : dijkstraLoop ag.adjs (dijkstraQueueInit (dijkstraInit ag)).length
      (dijkstraInit ag) [] (dijkstraQueueInit (dijkstraInit ag)) with
  | none => rw [hl] at h; cases h
  | some pr =>
    obtain ⟨dists, paths⟩ := pr
    rw [hl] at h
    simp only at h
    cases hb : buildDistNodes ag.com.nodes dists with
    | none => rw [hb] at h; cases h
    | some nodes =>
      rw [hb] at h
      simp only at h
      injection h with h
      subst h
      exact ⟨rfl, rfl, rfl, buildDistNodes_strip _ _ _ hb⟩

/-- Concrete two-node adjacency graph used to witness C10. -/
def agC10 : AdjacencyGraph Nat := ⟨⟨[(1, 5), (2, 7)], 1, 2⟩, [(1, [2]), (2, [1])]⟩

/-- The solver output on `agC10`. -/
def dgC10 : DijkstraGraph Nat :=
  ⟨⟨⟨[(1, (5, 0)), (2, (7, 1))], 1, 2⟩, [(1, [2]), (2, [1])]⟩, [(2, 1)]⟩

/-- C10 witness: the frame property instantiated on the concrete run
`agC10 → dgC10`. -/
theorem C10_witness_frame :
    agC10.into_dijkstra = some dgC10 ∧
    (dgC10.inner.com.start = agC10.com.start ∧
     dgC10.inner.com.goal = agC10.com.goal ∧
     dgC10.inner.adjs = agC10.adjs ∧
     dgC10.inner.com.nodes.map (fun p => (p.1, p.2.1)) = agC10.com.nodes) :=
  ⟨by decide, C10_into_dijkstra_frame agC10 dgC10 (by decide)⟩

theorem pruneLoop_no_dead_ends {Data : Type} (s t : Nat) :
    ∀ (fuel : Nat) (nodes : List (Nat × Data)) (edges : List Edge),
      nodes.length < fuel →
      deadEndsOf s t (pruneLoop s t fuel nodes edges).1
        (pruneLoop s t fuel nodes edges).2 = [] := by
  intro fuel
  induction fuel with
  | zero =>
    intro nodes edges h
    exact absurd h (Nat.not_lt_zero _)
  | succ n ih =>
    intro nodes edges h
    rw [pruneLoop]
    by_cases hde : (deadEndsOf s t nodes edges).isEmpty = true
    · rw [if_pos hde]
      exact List.isEmpty_iff.mp hde
    · rw [if_neg hde]
      apply ih
      have hne : deadEndsOf s t nodes edges ≠ [] := by
        intro hc
        rw [hc] at hde
        exact hde rfl
      have hfilterne :
          nodes.filter (fun p =>
            decide (degreeOf edges p.1 < 2) && (p.1 != s) && (p.1 != t)) ≠ [] := by
        intro hc
        apply hne
        rw [deadEndsOf, hc]
        rfl
      obtain ⟨p, hpmem⟩ := List.exists_mem_of_ne_nil _ hfilterne
      have hp1 : p.1 ∈ deadEndsOf s t nodes edges := by
        rw [deadEndsOf]
        exact List.mem_map_of_mem _ hpmem
      have hpn : p ∈ nodes := (List.mem_filter.mp hpmem).1
      have hlt : (nodes.filter (fun p =>
          !((deadEndsOf s t nodes edges).contains p.1))).length < nodes.length :=
        List.length_filter_lt_length_iff_exists.mpr ⟨p, hpn, by simp [hp1]⟩
      exact Nat.lt_of_lt_of_le hlt (Nat.lt_succ_iff.mp h)

theorem deadEndsOf_eq_nil_degree {Data : Type} {s t : Nat}
    {nodes : List (Nat × Data)} {edges : List Edge}
    (h : deadEndsOf s t nodes edges = []) :
    ∀ p ∈ nodes, p.1 ≠ s → p.1 ≠ t → 2 ≤ degreeOf edges p.1 := by
  intro p hp hps hpt
  rw [deadEndsOf, List.map_eq_nil] at h
  have := List.filter_eq_nil.mp h p hp
  simp only [Bool.and_eq_true, decide_eq_true_eq, bne_iff_ne, not_and] at this
  by_contra hdeg
  exact this ⟨Nat.lt_of_not_le hdeg, hps⟩ hpt

/-- C6: pruning reaches a fixed point — in `prune g` every node other than
the start and the goal has degree at least 2 in the output edge set, and
running `prune` a second time returns exactly the same graph (idempotence).
The hypothesis is the data-model invariant that edges reference only
existing nodes; on such graphs the Rust degree-counting loop (whose
`unwrap` would panic on a dangling edge endpoint) agrees with the model. -/
theorem C6_prune_fixed_point {Data : Type} (g : EdgeSetGraph Data)
    (hwf : ∀ e ∈ g.edges, e.emin ∈ g.com.nodes.map Prod.fst ∧
      e.emax ∈ g.com.nodes.map Prod.fst) :
    (∀ p ∈ g.prune.com.nodes, p.1 ≠ g.com.start → p.1 ≠ g.com.goal →
      2 ≤ degreeOf g.prune.edges p.1) ∧
    g.prune.prune = g.prune := by
  have hnil : deadEndsOf g.com.start g.com.goal
      (pruneLoop g.com.start g.com.goal (g.com.nodes.length + 1) g.com.nodes g.edges).1
      (pruneLoop g.com.start g.com.goal (g.com.nodes.length + 1) g.com.nodes g.edges).2 = [] :=
    pruneLoop_no_dead_ends g.com.start g.com.goal (g.com.nodes.length + 1)
      g.com.nodes g.edges (Nat.lt_succ_self _)
  constructor
  · exact deadEndsOf_eq_nil_degree hnil
  · show EdgeSetGraph.prune _ = _
    rw [EdgeSetGraph.prune, EdgeSetGraph.prune]
    simp only
    rw [pruneLoop, if_pos (List.isEmpty_iff.mpr hnil)]

/-- Concrete four-node graph used to witness C6: a corridor 1–2–3 (start 1,
goal 3) with a dead-end branch 3–4 that one pruning round removes. -/
def gC6 : EdgeSetGraph Nat :=
  ⟨⟨[(1, 11), (2, 12), (3, 13), (4, 14)], 1, 3⟩,
    [⟨1, 2⟩, ⟨2, 3⟩, ⟨3, 4⟩]⟩

/-- C6 witness: the fixed-point theorem instantiated on `gC6`. -/
theorem C6_witness_fixed_point :
    (∀ e ∈ gC6.edges, e.emin ∈ gC6.com.nodes.map Prod.fst ∧
      e.emax ∈ gC6.com.nodes.map Prod.fst) ∧
    ((∀ p ∈ gC6.prune.com.nodes, p.1 ≠ gC6.com.start → p.1 ≠ gC6.com.goal →
      2 ≤ degreeOf gC6.prune.edges p.1) ∧
    gC6.prune.prune = gC6.prune) :=
  ⟨by decide, C6_prune_fixed_point gC6 (by decide)⟩

theorem Grid.in_bounds_mk (g : Grid) (x y : Int) :
    g.in_bounds ⟨x, y⟩ = true ↔
      0 ≤ x ∧ 0 ≤ y ∧ x < (g.gwidth : Int) ∧ y < (g.gheight : Int) := by
  simp [Grid.in_bounds, Rect.newUnchecked, Rect.contains, and_assoc, ge_iff_le]

theorem Grid.get?_of_in_bounds {g : Grid} {p : V2} (h : g.in_bounds p = true) :
    g.get? p = some (g.getIB p) := by
  rw [Grid.get?, if_pos h]
  rfl

theorem growLeft_le (g : Grid) (seedy : Int) :
    ∀ (fuel : Nat) (minsx : Int), growLeft g seedy fuel minsx ≤ minsx := by
  intro fuel
  induction fuel with
  | zero => intro minsx; rw [growLeft]
  | succ n ih =>
    intro minsx
    rw [growLeft]
    by_cases hc : g.in_bounds ⟨minsx - 1, seedy⟩ &&
        (g.getIB ⟨minsx - 1, seedy⟩ == GridSquare.Clear)
    · rw [if_pos hc]
      exact le_trans (ih (minsx - 1)) (by omega)
    · rw [if_neg hc]

theorem growLeft_nonneg (g : Grid) (seedy : Int) :
    ∀ (fuel : Nat) (minsx : Int), 0 ≤ minsx → 0 ≤ growLeft g seedy fuel minsx := by
  intro fuel
  induction fuel with
  | zero => intro minsx h; rw [growLeft]; exact h
  | succ n ih =>
    intro minsx h
    rw [growLeft]
    by_cases hc : g.in_bounds ⟨minsx - 1, seedy⟩ &&
        (g.getIB ⟨minsx - 1, seedy⟩ == GridSquare.Clear)
    · rw [if_pos hc]
      apply ih
      have := (Grid.in_bounds_mk g (minsx - 1) seedy).mp (Bool.and_elim_left hc)
      omega
    · rw [if_neg hc]; exact h

theorem growLeft_clear (g : Grid) (seedy : Int) :
    ∀ (fuel : Nat) (minsx x : Int), growLeft g seedy fuel minsx ≤ x → x < minsx →
      g.in_bounds ⟨x, seedy⟩ = true ∧ g.getIB ⟨x, seedy⟩ = GridSquare.Clear := by
  intro fuel
  induction fuel with
  | zero =>
    intro minsx x h₁ h₂
    rw [growLeft] at h₁
    omega
  | succ n ih =>
    intro minsx x h₁ h₂
    rw [growLeft] at h₁
    by_cases hc : g.in_bounds ⟨minsx - 1, seedy⟩ &&
        (g.getIB ⟨minsx - 1, seedy⟩ == GridSquare.Clear)
    · rw [if_pos hc] at h₁
      rcases Bool.and_eq_true_iff.mp hc with ⟨hb, hcl⟩
      by_cases hx : x = minsx - 1
      · subst hx
        exact ⟨hb, beq_iff_eq.mp hcl⟩
      · exact ih (minsx - 1) x h₁ (by omega)
    · rw [if_neg hc] at h₁
      omega

theorem growLeft_break (g : Grid) (seedy : Int) :
    ∀ (fuel : Nat) (minsx : Int), minsx.toNat < fuel →
      ¬(g.in_bounds ⟨growLeft g seedy fuel minsx - 1, seedy⟩ = true ∧
        g.getIB ⟨growLeft g seedy fuel minsx - 1, seedy⟩ = GridSquare.Clear) := by
  intro fuel
  induction fuel with
  | zero =>
    intro minsx h
    exact absurd h (Nat.not_lt_zero _)
  | succ n ih =>
    intro minsx h
    rw [growLeft]
    by_cases hc : g.in_bounds ⟨minsx - 1, seedy⟩ &&
        (g.getIB ⟨minsx - 1, seedy⟩ == GridSquare.Clear)
    · rw [if_pos hc]
      apply ih
      have := (Grid.in_bounds_mk g (minsx - 1) seedy).mp (Bool.and_elim_left hc)
      omega
    · rw [if_neg hc]
      intro hcontra
      exact hc (Bool.and_eq_true_iff.mpr ⟨hcontra.1, beq_iff_eq.mpr hcontra.2⟩)

theorem growRight_ge (g : Grid) (seedy : Int) :
    ∀ (fuel : Nat) (maxsx : Int), maxsx ≤ growRight g seedy fuel maxsx := by
  intro fuel
  induction fuel with
  | zero => intro maxsx; rw [growRight]
  | succ n ih =>
    intro maxsx
    rw [growRight]
    by_cases hc : g.in_bounds ⟨maxsx, seedy⟩ &&
        (g.getIB ⟨maxsx, seedy⟩ == GridSquare.Clear)
    · rw [if_pos hc]
      exact le_trans (by omega) (ih (maxsx + 1))
    · rw [if_neg hc]

theorem growRight_le_width (g : Grid) (seedy : Int) :
    ∀ (fuel : Nat) (maxsx : Int), maxsx ≤ (g.gwidth : Int) →
      growRight g seedy fuel maxsx ≤ (g.gwidth : Int) := by
  intro fuel
  induction fuel with
  | zero => intro maxsx h; rw [growRight]; exact h
  | succ n ih =>
    intro maxsx h
    rw [growRight]
    by_cases hc : g.in_bounds ⟨maxsx, seedy⟩ &&
        (g.getIB ⟨maxsx, seedy⟩ == GridSquare.Clear)
    · rw [if_pos hc]
      apply ih
      have := (Grid.in_bounds_mk g maxsx seedy).mp (Bool.and_elim_left hc)
      omega
    · rw [if_neg hc]; exact h

theorem growRight_clear (g : Grid) (seedy : Int) :
    ∀ (fuel : Nat) (maxsx x : Int), maxsx ≤ x → x < growRight g seedy fuel maxsx →
      g.in_bounds ⟨x, seedy⟩ = true ∧ g.getIB ⟨x, seedy⟩ = GridSquare.Clear := by
  intro fuel
  induction fuel with
  | zero =>
    intro maxsx x h₁ h₂
    rw [growRight] at h₂
    omega
  | succ n ih =>
    intro maxsx x h₁ h₂
    rw [growRight] at h₂
    by_cases hc : g.in_bounds ⟨maxsx, seedy⟩ &&
        (g.getIB ⟨maxsx, seedy⟩ == GridSquare.Clear)
    · rw [if_pos hc] at h₂
      rcases Bool.and_eq_true_iff.mp hc with ⟨hb, hcl⟩
      by_cases hx : x = maxsx
      · subst hx
        exact ⟨hb, beq_iff_eq.mp hcl⟩
      · exact ih (maxsx + 1) x (by omega) h₂
    · rw [if_neg hc] at h₂
      omega

theorem growRight_break (g : Grid) (seedy : Int) :
    ∀ (fuel : Nat) (maxsx : Int), ((g.gwidth : Int) - maxsx).toNat < fuel →
      ¬(g.in_bounds ⟨growRight g seedy fuel maxsx, seedy⟩ = true ∧
        g.getIB ⟨growRight g seedy fuel maxsx, seedy⟩ = GridSquare.Clear) := by
  intro fuel
  induction fuel with
  | zero =>
    intro maxsx h
    exact absurd h (Nat.not_lt_zero _)
  | succ n ih =>
    intro maxsx h
    rw [growRight]
    by_cases hc : g.in_bounds ⟨maxsx, seedy⟩ &&
        (g.getIB ⟨maxsx, seedy⟩ == GridSquare.Clear)
    · rw [if_pos hc]
      apply ih
      have := (Grid.in_bounds_mk g maxsx seedy).mp (Bool.and_elim_left hc)
      omega
    · rw [if_neg hc]
      intro hcontra
      exact hc (Bool.and_eq_true_iff.mpr ⟨hcontra.1, beq_iff_eq.mpr hcontra.2⟩)

theorem Grid.get?_eq_some {g : Grid} {p : V2} {s : GridSquare} :
    g.get? p = some s ↔ (g.in_bounds p = true ∧ g.getIB p = s) := by
  rw [Grid.get?]
  by_cases h : g.in_bounds p = true
  · rw [if_pos h]
    simp [h, Grid.getIB]
  · rw [if_neg h]
    simp [h]

theorem rowClear_isSome (g : Grid) (y : Int) :
    ∀ (n : Nat) (x : Int), (∀ k : Nat, k < n → g.in_bounds ⟨x + k, y⟩ = true) →
      ∃ b, rowClear g y n x = some b := by
  intro n
  induction n with
  | zero => intro x h; exact ⟨true, rfl⟩
  | succ n ih =>
    intro x h
    rw [rowClear]
    have h0 : g.in_bounds ⟨x, y⟩ = true := by
      have := h 0 (Nat.succ_pos n)
      simpa using this
    rw [Grid.get?_of_in_bounds h0]
    show ∃ b, (if g.getIB ⟨x, y⟩ = GridSquare.Clear then rowClear g y n (x + 1)
      else some false) = some b
    by_cases hcl : g.getIB ⟨x, y⟩ = GridSquare.Clear
    · rw [if_pos hcl]
      apply ih
      intro k hk
      have := h (k + 1) (by omega)
      have harith : x + ((k : Int) + 1) = x + 1 + k := by ring
      rw [Nat.cast_add, Nat.cast_one, harith] at this
      exact this
    · rw [if_neg hcl]
      exact ⟨false, rfl⟩

theorem rowClear_true_clear (g : Grid) (y : Int) :
    ∀ (n : Nat) (x : Int), rowClear g y n x = some true →
      ∀ k : Nat, k < n →
        g.in_bounds ⟨x + k, y⟩ = true ∧ g.getIB ⟨x + k, y⟩ = GridSquare.Clear := by
  intro n
  induction n with
  | zero => intro x h k hk; omega
  | succ n ih =>
    intro x h k hk
    rw [rowClear] at h
    cases hget : g.get? ⟨x, y⟩ with
    | none => rw [hget] at h; cases h
    | some s =>
      rw [hget] at h
      simp only at h
      by_cases hcl : s = GridSquare.Clear
      · rw [if_pos hcl] at h
        subst hcl
        cases k with
        | zero =>
          have := Grid.get?_eq_some.mp hget
          simpa using this
        | succ j =>
          have := ih (x + 1) h j (by omega)
          have harith : x + 1 + (j : Int) = x + ((j : Int) + 1) := by ring
          rw [harith] at this
          rw [Nat.cast_add, Nat.cast_one]
          exact this
      · rw [if_neg hcl] at h
        cases h

theorem rowClear_false_exists (g : Grid) (y : Int) :
    ∀ (n : Nat) (x : Int), rowClear g y n x = some false →
      ∃ k : Nat, k < n ∧ g.get? ⟨x + k, y⟩ ≠ some GridSquare.Clear := by
  intro n
  induction n with
  | zero => intro x h; rw [rowClear] at h; cases h
  | succ n ih =>
    intro x h
    rw [rowClear] at h
    cases hget : g.get? ⟨x, y⟩ with
    | none => rw [hget] at h; cases h
    | some s =>
      rw [hget] at h
      simp only at h
      by_cases hcl : s = GridSquare.Clear
      · rw [if_pos hcl] at h
        obtain ⟨k, hk, hne⟩ := ih (x + 1) h
        refine ⟨k + 1, by omega, ?_⟩
        have harith : x + ((k : Int) + 1) = x + 1 + k := by ring
        rw [Nat.cast_add, Nat.cast_one, harith]
        exact hne
      · rw [if_neg hcl] at h
        refine ⟨0, Nat.succ_pos n, ?_⟩
        simp only [Nat.cast_zero, add_zero]
        rw [hget]
        intro hc
        injection hc with hc
        exact hcl hc

theorem growYmin_le (g : Grid) (minsx maxsx : Int) :
    ∀ (fuel : Nat) (minsy res : Int),
      growYmin g minsx maxsx fuel minsy = some res → res ≤ minsy := by
  intro fuel
  induction fuel with
  | zero =>
    intro minsy res h
    rw [growYmin] at h
    injection h with h
    omega
  | succ n ih =>
    intro minsy res h
    rw [growYmin] at h
    by_cases hb : g.in_bounds ⟨minsx, minsy - 1⟩ = true
    · rw [if_pos hb] at h
      cases hrc : rowClear g (minsy - 1) (maxsx - minsx).toNat minsx with
      | none => rw [hrc] at h; cases h
      | some b =>
        rw [hrc] at h
        cases b with
        | true =>
          simp only at h
          have := ih (minsy - 1) res h
          omega
        | false =>
          simp only at h
          injection h with h
          omega
    · rw [if_neg hb] at h
      injection h with h
      omega

theorem growYmin_rows_clear (g : Grid) (minsx maxsx : Int) :
    ∀ (fuel : Nat) (minsy res : Int),
      growYmin g minsx maxsx fuel minsy = some res →
      ∀ yy : Int, res ≤ yy → yy < minsy →
        ∀ k : Nat, k < (maxsx - minsx).toNat →
          g.in_bounds ⟨minsx + k, yy⟩ = true ∧
          g.getIB ⟨minsx + k, yy⟩ = GridSquare.Clear := by
  intro fuel
  induction fuel with
  | zero =>
    intro minsy res h yy h₁ h₂ k hk
    rw [growYmin] at h
    injection h with h
    omega
  | succ n ih =>
    intro minsy res h yy h₁ h₂ k hk
    rw [growYmin] at h
    by_cases hb : g.in_bounds ⟨minsx, minsy - 1⟩ = true
    · rw [if_pos hb] at h
      cases hrc : rowClear g (minsy - 1) (maxsx - minsx).toNat minsx with
      | none => rw [hrc] at h; cases h
      | some b =>
        rw [hrc] at h
        cases b with
        | true =>
          simp only at h
          by_cases hyy : yy = minsy - 1
          · subst hyy
            exact rowClear_true_clear g (minsy - 1) _ minsx hrc k hk
          · exact ih (minsy - 1) res h yy h₁ (by omega) k hk
        | false =>
          simp only at h
          injection h with h
          omega
    · rw [if_neg hb] at h
      injection h with h
      omega

theorem growYmin_break (g : Grid) (minsx maxsx : Int) :
    ∀ (fuel : Nat) (minsy res : Int), minsy.toNat < fuel →
      growYmin g minsx maxsx fuel minsy = some res →
      g.in_bounds ⟨minsx, res - 1⟩ = false ∨
      rowClear g (res - 1) (maxsx - minsx).toNat minsx = some false := by
  intro fuel
  induction fuel with
  | zero =>
    intro minsy res hf
    exact absurd hf (Nat.not_lt_zero _)
  | succ n ih =>
    intro minsy res hf h
    rw [growYmin] at h
    by_cases hb : g.in_bounds ⟨minsx, minsy - 1⟩ = true
    · rw [if_pos hb] at h
      cases hrc : rowClear g (minsy - 1) (maxsx - minsx).toNat minsx with
      | none => rw [hrc] at h; cases h
      | some b =>
        rw [hrc] at h
        cases b with
        | true =>
          simp only at h
          apply ih (minsy - 1) res _ h
          have := (Grid.in_bounds_mk g minsx (minsy - 1)).mp hb
          omega
        | false =>
          simp only at h
          injection h with h
          subst h
          exact Or.inr hrc
    · rw [if_neg hb] at h
      injection h with h
      subst h
      exact Or.inl (Bool.not_eq_true _ ▸ Bool.of_not_eq_true hb)

theorem growYmin_isSome (g : Grid) (minsx maxsx : Int)
    (hx0 : 0 ≤ minsx) (hxw : maxsx ≤ (g.gwidth : Int)) :
    ∀ (fuel : Nat) (minsy : Int), ∃ res, growYmin g minsx maxsx fuel minsy = some res := by
  intro fuel
  induction fuel with
  | zero => intro minsy; exact ⟨minsy, rfl⟩
  | succ n ih =>
    intro minsy
    rw [growYmin]
    by_cases hb : g.in_bounds ⟨minsx, minsy - 1⟩ = true
    · rw [if_pos hb]
      have hbm := (Grid.in_bounds_mk g minsx (minsy - 1)).mp hb
      obtain ⟨b, hrc⟩ := rowClear_isSome g (minsy - 1) (maxsx - minsx).toNat minsx
        (by
          intro k hk
          rw [Grid.in_bounds_mk]
          omega)
      rw [hrc]
      cases b with
      | true => exact ih (minsy - 1)
      | false => exact ⟨minsy, rfl⟩
    · rw [if_neg hb]
      exact ⟨minsy, rfl⟩

theorem growYmax_ge (g : Grid) (minsx maxsx : Int) :
    ∀ (fuel : Nat) (maxsy res : Int),
      growYmax g minsx maxsx fuel maxsy = some res → maxsy ≤ res := by
  intro fuel
  induction fuel with
  | zero =>
    intro maxsy res h
    rw [growYmax] at h
    injection h with h
    omega
  | succ n ih =>
    intro maxsy res h
    rw [growYmax] at h
    by_cases hb : g.in_bounds ⟨minsx, maxsy⟩ = true
    · rw [if_pos hb] at h
      cases hrc : rowClear g maxsy (maxsx - minsx).toNat minsx with
      | none => rw [hrc] at h; cases h
      | some b =>
        rw [hrc] at h
        cases b with
        | true =>
          simp only at h
          have := ih (maxsy + 1) res h
          omega
        | false =>
          simp only at h
          injection h with h
          omega
    · rw [if_neg hb] at h
      injection h with h
      omega

theorem growYmax_rows_clear (g : Grid) (minsx maxsx : Int) :
    ∀ (fuel : Nat) (maxsy res : Int),
      growYmax g minsx maxsx fuel maxsy = some res →
      ∀ yy : Int, maxsy ≤ yy → yy < res →
        ∀ k : Nat, k < (maxsx - minsx).toNat →
          g.in_bounds ⟨minsx + k, yy⟩ = true ∧
          g.getIB ⟨minsx + k, yy⟩ = GridSquare.Clear := by
  intro fuel
  induction fuel with
  | zero =>
    intro maxsy res h yy h₁ h₂ k hk
    rw [growYmax] at h
    injection h with h
    omega
  | succ n ih =>
    intro maxsy res h yy h₁ h₂ k hk
    rw [growYmax] at h
    by_cases hb : g.in_bounds ⟨minsx, maxsy⟩ = true
    · rw [if_pos hb] at h
      cases hrc : rowClear g maxsy (maxsx - minsx).toNat minsx with
      | none => rw [hrc] at h; cases h
      | some b =>
        rw [hrc] at h
        cases b with
        | true =>
          simp only at h
          by_cases hyy : yy = maxsy
          · subst hyy
            exact rowClear_true_clear g yy _ minsx hrc k hk
          · exact ih (maxsy + 1) res h yy (by omega) h₂ k hk
        | false =>
          simp only at h
          injection h with h
          omega
    · rw [if_neg hb] at h
      injection h with h
      omega

theorem growYmax_break (g : Grid) (minsx maxsx : Int) :
    ∀ (fuel : Nat) (maxsy res : Int), ((g.gheight : Int) - maxsy).toNat < fuel →
      growYmax g minsx maxsx fuel maxsy = some res →
      g.in_bounds ⟨minsx, res⟩ = false ∨
      rowClear g res (maxsx - minsx).toNat minsx = some false := by
  intro fuel
  induction fuel with
  | zero =>
    intro maxsy res hf
    exact absurd hf (Nat.not_lt_zero _)
  | succ n ih =>
    intro maxsy res hf h
    rw [growYmax] at h
    by_cases hb : g.in_bounds ⟨minsx, maxsy⟩ = true
    · rw [if_pos hb] at h
      cases hrc : rowClear g maxsy (maxsx - minsx).toNat minsx with
      | none => rw [hrc] at h; cases h
      | some b =>
        rw [hrc] at h
        cases b with
        | true =>
          simp only at h
          apply ih (maxsy + 1) res _ h
          have := (Grid.in_bounds_mk g minsx maxsy).mp hb
          omega
        | false =>
          simp only at h
          injection h with h
          subst h
          exact Or.inr hrc
    · rw [if_neg hb] at h
      injection h with h
      subst h
      exact Or.inl (Bool.of_not_eq_true hb)

theorem growYmax_isSome (g : Grid) (minsx maxsx : Int)
    (hx0 : 0 ≤ minsx) (hxw : maxsx ≤ (g.gwidth : Int)) :
    ∀ (fuel : Nat) (maxsy : Int), ∃ res, growYmax g minsx maxsx fuel maxsy = some res := by
  intro fuel
  induction fuel with
  | zero => intro maxsy; exact ⟨maxsy, rfl⟩
  | succ n ih =>
    intro maxsy
    rw [growYmax]
    by_cases hb : g.in_bounds ⟨minsx, maxsy⟩ = true
    · rw [if_pos hb]
      have hbm := (Grid.in_bounds_mk g minsx maxsy).mp hb
      obtain ⟨b, hrc⟩ := rowClear_isSome g maxsy (maxsx - minsx).toNat minsx
        (by
          intro k hk
          rw [Grid.in_bounds_mk]
          omega)
      rw [hrc]
      cases b with
      | true => exact ih (maxsy + 1)
      | false => exact ⟨maxsy, rfl⟩
    · rw [if_neg hb]
      exact ⟨maxsy, rfl⟩

theorem Rect.new_eq_mk {a b : V2} (hx : a.x ≤ b.x) (hy : a.y ≤ b.y) :
    Rect.new a b = ⟨a, b⟩ := by
  rw [Rect.new]
  congr 1
  · congr 1
    · exact min_eq_left hx
    · exact min_eq_left hy
  · congr 1
    · exact max_eq_right hx
    · exact max_eq_right hy

/-- Full specification of `grow_rect` on an in-bounds `Clear` seed: success,
seed containment, all-cells-`Clear`, and scan-order maximality on all four
sides.  (Shared helper; claim C7 restates it below.) -/
theorem grow_rect_spec (g : Grid) (seed : V2)
    (hclear : g.get? seed = some GridSquare.Clear) :
    ∃ r, grow_rect g seed = some r ∧
      r.contains seed = true ∧
      (∀ p : V2, r.contains p = true → g.get? p = some GridSquare.Clear) ∧
      (g.in_bounds ⟨r.mins.x - 1, seed.y⟩ = false ∨
        g.get? ⟨r.mins.x - 1, seed.y⟩ ≠ some GridSquare.Clear) ∧
      (g.in_bounds ⟨r.maxs.x, seed.y⟩ = false ∨
        g.get? ⟨r.maxs.x, seed.y⟩ ≠ some GridSquare.Clear) ∧
      (g.in_bounds ⟨r.mins.x, r.mins.y - 1⟩ = false ∨
        ∃ x : Int, r.mins.x ≤ x ∧ x < r.maxs.x ∧
          g.get? ⟨x, r.mins.y - 1⟩ ≠ some GridSquare.Clear) ∧
      (g.in_bounds ⟨r.mins.x, r.maxs.y⟩ = false ∨
        ∃ x : Int, r.mins.x ≤ x ∧ x < r.maxs.x ∧
          g.get? ⟨x, r.maxs.y⟩ ≠ some GridSquare.Clear) := by
  obtain ⟨hin, hcl⟩ := Grid.get?_eq_some.mp hclear
  have hseed : 0 ≤ seed.x ∧ 0 ≤ seed.y ∧ seed.x < (g.gwidth : Int) ∧
      seed.y < (g.gheight : Int) := by
    have : g.in_bounds ⟨seed.x, seed.y⟩ = true := hin
    exact (Grid.in_bounds_mk g seed.x seed.y).mp this
  set mx := growLeft g seed.y (seed.x.toNat + 1) seed.x with hmx
  set Mx := growRight g seed.y (g.gwidth + 1) (seed.x + 1) with hMx
  have hmx_le : mx ≤ seed.x := growLeft_le g seed.y _ seed.x
  have hmx0 : 0 ≤ mx := growLeft_nonneg g seed.y _ seed.x hseed.1
  have hMx_ge : seed.x + 1 ≤ Mx := growRight_ge g seed.y _ (seed.x + 1)
  have hMx_w : Mx ≤ (g.gwidth : Int) :=
    growRight_le_width g seed.y _ (seed.x + 1) (by omega)
  -- the seed row is Clear and in bounds on [mx, Mx)
  have hrow : ∀ x : Int, mx ≤ x → x < Mx →
      g.in_bounds ⟨x, seed.y⟩ = true ∧ g.getIB ⟨x, seed.y⟩ = GridSquare.Clear := by
    intro x h₁ h₂
    rcases lt_trichotomy x seed.x with hx | hx | hx
    · exact growLeft_clear g seed.y _ seed.x x h₁ hx
    · subst hx
      exact ⟨hin, hcl⟩
    · exact growRight_clear g seed.y _ (seed.x + 1) x (by omega) h₂
  obtain ⟨my, hmy⟩ := growYmin_isSome g mx Mx hmx0 hMx_w (seed.y.toNat + 1) seed.y
  obtain ⟨My, hMy⟩ := growYmax_isSome g mx Mx hmx0 hMx_w (g.gheight + 1) (seed.y + 1)
  have hmy_le : my ≤ seed.y := growYmin_le g mx Mx _ seed.y my hmy
  have hMy_ge : seed.y + 1 ≤ My := growYmax_ge g mx Mx _ (seed.y + 1) My hMy
  have hrect : grow_rect g seed = some ⟨⟨mx, my⟩, ⟨Mx, My⟩⟩ := by
    rw [grow_rect, ← hmx, ← hMx, hmy]
    simp only
    rw [hMy]
    simp only
    rw [Rect.new_eq_mk (by show mx ≤ Mx; omega) (by show my ≤ My; omega)]
  refine ⟨⟨⟨mx, my⟩, ⟨Mx, My⟩⟩, hrect, ?_, ?_, ?_, ?_, ?_, ?_⟩
  · rw [Rect.contains_iff]
    refine ⟨hmx_le, hmy_le, ?_, ?_⟩
    · show seed.x < Mx
      omega
    · show seed.y < My
      omega
  · intro p hp
    rw [Rect.contains_iff] at hp
    obtain ⟨hp0, hp5, hp6, hp7⟩ := hp
    have hp1 : mx ≤ p.x := hp0
    have hp2 : my ≤ p.y := hp5
    have hp3 : p.x < Mx := hp6
    have hp4 : p.y < My := hp7
    rcases lt_trichotomy p.y seed.y with hy | hy | hy
    · have hk : ((p.x - mx).toNat : Int) = p.x - mx := Int.toNat_of_nonneg (by omega)
      have := growYmin_rows_clear g mx Mx _ seed.y my hmy p.y hp2 hy
        (p.x - mx).toNat (by omega)
      rw [hk] at this
      have hpos : (⟨mx + (p.x - mx), p.y⟩ : V2) = ⟨p.x, p.y⟩ := by
        congr 1
        omega
      rw [hpos] at this
      rw [show p = (⟨p.x, p.y⟩ : V2) from rfl]
      rw [Grid.get?_of_in_bounds this.1, this.2]
    · have := hrow p.x hp1 hp3
      rw [show p = (⟨p.x, p.y⟩ : V2) from rfl, hy]
      rw [Grid.get?_of_in_bounds this.1, this.2]
    · have hk : ((p.x - mx).toNat : Int) = p.x - mx := Int.toNat_of_nonneg (by omega)
      have := growYmax_rows_clear g mx Mx _ (seed.y + 1) My hMy p.y (by omega) hp4
        (p.x - mx).toNat (by omega)
      rw [hk] at this
      have hpos : (⟨mx + (p.x - mx), p.y⟩ : V2) = ⟨p.x, p.y⟩ := by
        congr 1
        omega
      rw [hpos] at this
      rw [show p = (⟨p.x, p.y⟩ : V2) from rfl]
      rw [Grid.get?_of_in_bounds this.1, this.2]
  · have hbreak := growLeft_break g seed.y (seed.x.toNat + 1) seed.x (Nat.lt_succ_self _)
    rw [← hmx] at hbreak
    by_cases hb : g.in_bounds ⟨mx - 1, seed.y⟩ = true
    · refine Or.inr ?_
      rw [Grid.get?_of_in_bounds hb]
      intro hc
      injection hc with hc
      exact hbreak ⟨hb, hc⟩
    · exact Or.inl (Bool.of_not_eq_true hb)
  · have hbreak := growRight_break g seed.y (g.gwidth + 1) (seed.x + 1) (by omega)
    rw [← hMx] at hbreak
    by_cases hb : g.in_bounds ⟨Mx, seed.y⟩ = true
    · refine Or.inr ?_
      rw [Grid.get?_of_in_bounds hb]
      intro hc
      injection hc with hc
      exact hbreak ⟨hb, hc⟩
    · exact Or.inl (Bool.of_not_eq_true hb)
  · have hbreak := growYmin_break g mx Mx (seed.y.toNat + 1) seed.y my
      (Nat.lt_succ_self _) hmy
    rcases hbreak with hb | hb
    · exact Or.inl hb
    · refine Or.inr ?_
      obtain ⟨k, hk, hne⟩ := rowClear_false_exists g (my - 1) _ mx hb
      refine ⟨mx + k, ?_, ?_, hne⟩
      · show mx ≤ mx + (k : Int)
        omega
      · show mx + (k : Int) < Mx
        omega
  · have hbreak := growYmax_break g mx Mx (g.gheight + 1) (seed.y + 1) My
      (by omega) hMy
    rcases hbreak with hb | hb
    · exact Or.inl hb
    · refine Or.inr ?_
      obtain ⟨k, hk, hne⟩ := rowClear_false_exists g My _ mx hb
      refine ⟨mx + k, ?_, ?_, hne⟩
      · show mx ≤ mx + (k : Int)
        omega
      · show mx + (k : Int) < Mx
        omega

/-- C7: on any grid, growing from an in-bounds `Clear` seed succeeds and
yields a rectangle that contains the seed, consists only of in-bounds `Clear`
cells, and is maximal under the fixed scan order: the probe cell immediately
left of the rectangle in the seed's row is out of bounds or not `Clear`,
likewise the probe cell immediately to its right; the one-cell row
immediately above the rectangle is out of bounds or contains (over the
rectangle's x-range) a non-`Clear` cell, likewise the row immediately below. -/
theorem C7_grow_rect_maximal (g : Grid) (seed : V2)
    (hclear : g.get? seed = some GridSquare.Clear) :
    ∃ r, grow_rect g seed = some r ∧
      r.contains seed = true ∧
      (∀ p : V2, r.contains p = true → g.get? p = some GridSquare.Clear) ∧
      (g.in_bounds ⟨r.mins.x - 1, seed.y⟩ = false ∨
        g.get? ⟨r.mins.x - 1, seed.y⟩ ≠ some GridSquare.Clear) ∧
      (g.in_bounds ⟨r.maxs.x, seed.y⟩ = false ∨
        g.get? ⟨r.maxs.x, seed.y⟩ ≠ some GridSquare.Clear) ∧
      (g.in_bounds ⟨r.mins.x, r.mins.y - 1⟩ = false ∨
        ∃ x : Int, r.mins.x ≤ x ∧ x < r.maxs.x ∧
          g.get? ⟨x, r.mins.y - 1⟩ ≠ some GridSquare.Clear) ∧
      (g.in_bounds ⟨r.mins.x, r.maxs.y⟩ = false ∨
        ∃ x : Int, r.mins.x ≤ x ∧ x < r.maxs.x ∧
          g.get? ⟨x, r.maxs.y⟩ ≠ some GridSquare.Clear) :=
  grow_rect_spec g seed hclear

/-- Two-pixel all-white image used to witness C7. -/
def imgC7 : Image := ⟨2, 1, [255, 255], rfl⟩

/-- The grid decoded from `imgC7`. -/
def gridC7 : Grid := Grid.new_from_image imgC7

/-- C7 witness: the growth theorem instantiated on the concrete grid
`gridC7` with seed (0,0). -/
theorem C7_witness_grow :
    gridC7.get? ⟨0, 0⟩ = some GridSquare.Clear ∧
    (∃ r, grow_rect gridC7 ⟨0, 0⟩ = some r ∧
      r.contains ⟨0, 0⟩ = true ∧
      (∀ p : V2, r.contains p = true → gridC7.get? p = some GridSquare.Clear) ∧
      (gridC7.in_bounds ⟨r.mins.x - 1, (0 : Int)⟩ = false ∨
        gridC7.get? ⟨r.mins.x - 1, (0 : Int)⟩ ≠ some GridSquare.Clear) ∧
      (gridC7.in_bounds ⟨r.maxs.x, (0 : Int)⟩ = false ∨
        gridC7.get? ⟨r.maxs.x, (0 : Int)⟩ ≠ some GridSquare.Clear) ∧
      (gridC7.in_bounds ⟨r.mins.x, r.mins.y - 1⟩ = false ∨
        ∃ x : Int, r.mins.x ≤ x ∧ x < r.maxs.x ∧
          gridC7.get? ⟨x, r.mins.y - 1⟩ ≠ some GridSquare.Clear) ∧
      (gridC7.in_bounds ⟨r.mins.x, r.maxs.y⟩ = false ∨
        ∃ x : Int, r.mins.x ≤ x ∧ x < r.maxs.x ∧
          gridC7.get? ⟨x, r.maxs.y⟩ ≠ some GridSquare.Clear)) :=
  ⟨by decide, C7_grow_rect_maximal gridC7 ⟨0, 0⟩ (by decide)⟩

theorem rowMajorIndex_inj (g : Grid) {p q : V2}
    (hp : g.in_bounds p = true) (hq : g.in_bounds q = true)
    (h : p.y.toNat * g.gwidth + p.x.toNat = q.y.toNat * g.gwidth + q.x.toNat) :
    p = q := by
  have hp₂ := (Grid.in_bounds_mk g p.x p.y).mp hp
  have hq₂ := (Grid.in_bounds_mk g q.x q.y).mp hq
  have hpx : p.x.toNat < g.gwidth := by omega
  have hqx : q.x.toNat < g.gwidth := by omega
  have hmodp : (p.y.toNat * g.gwidth + p.x.toNat) % g.gwidth = p.x.toNat := by
    rw [Nat.add_mod, Nat.mul_mod_left]
    simp [Nat.mod_eq_of_lt hpx]
  have hmodq : (q.y.toNat * g.gwidth + q.x.toNat) % g.gwidth = q.x.toNat := by
    rw [Nat.add_mod, Nat.mul_mod_left]
    simp [Nat.mod_eq_of_lt hqx]
  have hx : p.x.toNat = q.x.toNat := by rw [← hmodp, h, hmodq]
  have hw : 0 < g.gwidth := by omega
  have hy : p.y.toNat = q.y.toNat := by
    have hmul : p.y.toNat * g.gwidth = q.y.toNat * g.gwidth := by omega
    exact Nat.eq_of_mul_eq_mul_right hw hmul
  have : p.x = q.x ∧ p.y = q.y := by omega
  cases p
  cases q
  simp only [V2.mk.injEq]
  exact ⟨this.1, this.2⟩

theorem rowMajorIndex_lt (g : Grid) {p : V2} (hp : g.in_bounds p = true) :
    p.y.toNat * g.gwidth + p.x.toNat < g.squares.length := by
  have hp₂ := (Grid.in_bounds_mk g p.x p.y).mp hp
  rw [g.hlen]
  have hx : p.x.toNat < g.gwidth := by omega
  have hy : p.y.toNat < g.gheight := by omega
  calc p.y.toNat * g.gwidth + p.x.toNat
      < p.y.toNat * g.gwidth + g.gwidth := by omega
    _ = (p.y.toNat + 1) * g.gwidth := by ring
    _ ≤ g.gheight * g.gwidth := Nat.mul_le_mul_right _ (by omega)
    _ = g.gwidth * g.gheight := Nat.mul_comm _ _

theorem Grid.set?_eq_some {g : Grid} {p : V2} (s : GridSquare)
    (h : g.in_bounds p = true) : ∃ g', g.set? p s = some g' := by
  rw [Grid.set?, if_pos h]
  exact ⟨_, rfl⟩

theorem Grid.set?_dims {g g' : Grid} {p : V2} {s : GridSquare}
    (h : g.set? p s = some g') : g'.gwidth = g.gwidth ∧ g'.gheight = g.gheight := by
  rw [Grid.set?] at h
  by_cases hb : g.in_bounds p = true
  · rw [if_pos hb] at h
    injection h with h
    subst h
    exact ⟨rfl, rfl⟩
  · rw [if_neg hb] at h
    cases h

theorem Grid.in_bounds_of_dims {g g' : Grid}
    (hw : g'.gwidth = g.gwidth) (hh : g'.gheight = g.gheight) (q : V2) :
    g'.in_bounds q = g.in_bounds q := by
  rw [Grid.in_bounds, Grid.in_bounds, hw, hh]

theorem Grid.set?_in_bounds {g g' : Grid} {p : V2} {s : GridSquare}
    (h : g.set? p s = some g') : g.in_bounds p = true := by
  rw [Grid.set?] at h
  by_cases hb : g.in_bounds p = true
  · exact hb
  · rw [if_neg hb] at h
    cases h

theorem Grid.set?_squares {g g' : Grid} {p : V2} {s : GridSquare}
    (h : g.set? p s = some g') :
    g'.squares = g.squares.set (p.y.toNat * g.gwidth + p.x.toNat) s := by
  have hb := Grid.set?_in_bounds h
  rw [Grid.set?, if_pos hb] at h
  injection h with h
  subst h
  rfl

theorem Grid.set?_get?_self {g g' : Grid} {p : V2} {s : GridSquare}
    (h : g.set? p s = some g') : g'.get? p = some s := by
  have hb := Grid.set?_in_bounds h
  have hdims := Grid.set?_dims h
  have hsq := Grid.set?_squares h
  rw [Grid.get?, Grid.in_bounds_of_dims hdims.1 hdims.2, if_pos hb, hsq, hdims.1]
  rw [List.getD_eq_getElem?_getD, List.getElem?_set_self (rowMajorIndex_lt g hb)]
  rfl

theorem Grid.set?_get?_ne {g g' : Grid} {p : V2} {s : GridSquare}
    (h : g.set? p s = some g') (q : V2) (hq : q ≠ p) : g'.get? q = g.get? q := by
  have hb := Grid.set?_in_bounds h
  have hdims := Grid.set?_dims h
  have hsq := Grid.set?_squares h
  rw [Grid.get?, Grid.get?, Grid.in_bounds_of_dims hdims.1 hdims.2, hsq, hdims.1]
  by_cases hqb : g.in_bounds q = true
  · rw [if_pos hqb, if_pos hqb]
    have hne : p.y.toNat * g.gwidth + p.x.toNat ≠ q.y.toNat * g.gwidth + q.x.toNat := by
      intro hc
      exact hq (rowMajorIndex_inj g hqb hb hc.symm)
    rw [List.getD_eq_getElem?_getD, List.getD_eq_getElem?_getD,
      List.getElem?_set_ne hne]
  · rw [if_neg hqb, if_neg hqb]

theorem claimRow_isSome (id : Nat) (y : Int) :
    ∀ (n : Nat) (x : Int) (g : Grid),
      (∀ k : Nat, k < n → g.in_bounds ⟨x + k, y⟩ = true) →
      ∃ g', claimRow id y n x g = some g' := by
  intro n
  induction n with
  | zero => intro x g h; exact ⟨g, rfl⟩
  | succ n ih =>
    intro x g h
    have h0 : g.in_bounds ⟨x, y⟩ = true := by
      have := h 0 (Nat.succ_pos n)
      simpa using this
    obtain ⟨g₁, hg₁⟩ := Grid.set?_eq_some (GridSquare.Covered id) h0
    rw [claimRow, hg₁]
    have hdims := Grid.set?_dims hg₁
    apply ih (x + 1) g₁
    intro k hk
    rw [Grid.in_bounds_of_dims hdims.1 hdims.2]
    have := h (k + 1) (by omega)
    have harith : x + ((k : Int) + 1) = x + 1 + k := by ring
    rw [Nat.cast_add, Nat.cast_one, harith] at this
    exact this

theorem claimRow_sem (id : Nat) (y : Int) :
    ∀ (n : Nat) (x : Int) (g g' : Grid), claimRow id y n x g = some g' →
      (g'.gwidth = g.gwidth ∧ g'.gheight = g.gheight) ∧
      (∀ q : V2, q.y = y → x ≤ q.x → q.x < x + n →
        g'.get? q = some (GridSquare.Covered id)) ∧
      (∀ q : V2, ¬(q.y = y ∧ x ≤ q.x ∧ q.x < x + n) → g'.get? q = g.get? q) := by
  intro n
  induction n with
  | zero =>
    intro x g g' h
    rw [claimRow] at h
    injection h with h
    subst h
    refine ⟨⟨rfl, rfl⟩, ?_, ?_⟩
    · intro q hq1 hq2 hq3
      omega
    · intro q hq
      rfl
  | succ n ih =>
    intro x g g' h
    rw [claimRow] at h
    cases hset : g.set? ⟨x, y⟩ (GridSquare.Covered id) with
    | none => rw [hset] at h; cases h
    | some g₁ =>
      rw [hset] at h
      simp only at h
      obtain ⟨ihdims, ihcov, ihout⟩ := ih (x + 1) g₁ g' h
      have hdims := Grid.set?_dims hset
      refine ⟨⟨ihdims.1.trans hdims.1, ihdims.2.trans hdims.2⟩, ?_, ?_⟩
      · intro q hq1 hq2 hq3
        by_cases hqx : q.x = x
        · have hqe : q = ⟨x, y⟩ := by
            cases q
            simp only [V2.mk.injEq]
            exact ⟨hqx, hq1⟩
          rw [ihout q (by omega)]
          rw [hqe]
          exact Grid.set?_get?_self hset
        · apply ihcov q hq1 (by omega)
          have : q.x < x + ((n : Int) + 1) := by
            have := hq3
            rw [Nat.cast_add, Nat.cast_one] at this
            exact this
          omega
      · intro q hq
        rw [ihout q]
        · apply Grid.set?_get?_ne hset
          intro hqe
          apply hq
          rw [hqe]
          refine ⟨rfl, le_refl _, ?_⟩
          show x < x + ((n : Nat) + 1 : Nat)
          push_cast
          omega
        · intro hc
          apply hq
          refine ⟨hc.1, by omega, ?_⟩
          have := hc.2.2
          push_cast
          push_cast at this
          omega

theorem claimRect_isSome (id : Nat) (r : Rect) :
    ∀ (n : Nat) (y : Int) (g : Grid),
      (∀ q : V2, y ≤ q.y → q.y < y + n → r.mins.x ≤ q.x →
        q.x < r.mins.x + r.width.toNat → g.in_bounds q = true) →
      ∃ g', claimRect id r n y g = some g' := by
  intro n
  induction n with
  | zero => intro y g h; exact ⟨g, rfl⟩
  | succ n ih =>
    intro y g h
    obtain ⟨g₁, hg₁⟩ := claimRow_isSome id y r.width.toNat r.mins.x g
      (by
        intro k hk
        apply h ⟨r.mins.x + k, y⟩ (le_refl _)
        · show y < y + ((n : Nat) + 1 : Nat)
          push_cast
          omega
        · show r.mins.x ≤ r.mins.x + (k : Int)
          omega
        · show r.mins.x + (k : Int) < r.mins.x + r.width.toNat
          omega)
    rw [claimRect, hg₁]
    have hdims := (claimRow_sem id y r.width.toNat r.mins.x g g₁ hg₁).1
    apply ih (y + 1) g₁
    intro q hq1 hq2 hq3 hq4
    rw [Grid.in_bounds_of_dims hdims.1 hdims.2]
    apply h q (by omega) _ hq3 hq4
    have : q.y < y + 1 + (n : Int) := hq2
    push_cast
    omega

theorem claimRect_sem (id : Nat) (r : Rect) :
    ∀ (n : Nat) (y : Int) (g g' : Grid), claimRect id r n y g = some g' →
      (g'.gwidth = g.gwidth ∧ g'.gheight = g.gheight) ∧
      (∀ q : V2, y ≤ q.y → q.y < y + n → r.mins.x ≤ q.x →
        q.x < r.mins.x + r.width.toNat →
        g'.get? q = some (GridSquare.Covered id)) ∧
      (∀ q : V2, ¬(y ≤ q.y ∧ q.y < y + n ∧ r.mins.x ≤ q.x ∧
        q.x < r.mins.x + r.width.toNat) → g'.get? q = g.get? q) := by
  intro n
  induction n with
  | zero =>
    intro y g g' h
    rw [claimRect] at h
    injection h with h
    subst h
    refine ⟨⟨rfl, rfl⟩, ?_, ?_⟩
    · intro q hq1 hq2 hq3 hq4
      omega
    · intro q hq
      rfl
  | succ n ih =>
    intro y g g' h
    rw [claimRect] at h
    cases hrow : claimRow id y r.width.toNat r.mins.x g with
    | none => rw [hrow] at h; cases h
    | some g₁ =>
      rw [hrow] at h
      simp only at h
      obtain ⟨ihdims, ihcov, ihout⟩ := ih (y + 1) g₁ g' h
      obtain ⟨rdims, rcov, rout⟩ := claimRow_sem id y r.width.toNat r.mins.x g g₁ hrow
      refine ⟨⟨ihdims.1.trans rdims.1, ihdims.2.trans rdims.2⟩, ?_, ?_⟩
      · intro q hq1 hq2 hq3 hq4
        by_cases hqy : q.y = y
        · rw [ihout q (by omega)]
          exact rcov q hqy hq3 (by omega)
        · apply ihcov q (by omega) _ hq3 hq4
          have : q.y < y + ((n : Int) + 1) := by
            have := hq2
            push_cast at this
            exact this
          omega
      · intro q hq
        rw [ihout q]
        · apply rout q
          intro hc
          apply hq
          refine ⟨by omega, ?_, hc.2.1, hc.2.2⟩
          have : y < y + ((n : Nat) + 1 : Nat) := by push_cast; omega
          omega
        · intro hc
          apply hq
          refine ⟨by omega, ?_, hc.2.2.1, hc.2.2.2⟩
          have := hc.2.1
          push_cast
          push_cast at this
          omega

theorem V2.add_sub_cancel (p s : V2) : (p.add s).sub s = p := by
  cases p
  cases s
  simp [V2.add, V2.sub]

theorem finalizeRun_queue_bounds (g : Grid) {q : List V2} {es : List Edge}
    {id : Nat} {prev : GridSquare} {pos step : V2}
    (hq : ∀ v ∈ q, g.in_bounds v = true)
    (hprev : prev = GridSquare.Clear → g.in_bounds (pos.sub step) = true) :
    ∀ v ∈ (finalizeRun q es id prev pos step).1, g.in_bounds v = true := by
  cases prev with
  | Clear =>
    intro v hv
    rw [finalizeRun] at hv
    rcases List.mem_append.mp hv with hv | hv
    · exact hq v hv
    · rw [List.mem_singleton.mp hv]
      exact hprev rfl
  | Wall => exact hq
  | Covered pid => exact hq

theorem scanEdgeLoop_queue_bounds (g : Grid) (id : Nat) (step : V2) :
    ∀ (n : Nat) (q : List V2) (es : List Edge) (pos : V2) (prev : GridSquare),
      (∀ v ∈ q, g.in_bounds v = true) →
      (prev = GridSquare.Clear → g.in_bounds (pos.sub step) = true) →
      (∀ v ∈ (scanEdgeLoop g id step n q es pos prev).1.1, g.in_bounds v = true) ∧
      ((scanEdgeLoop g id step n q es pos prev).2.2 = GridSquare.Clear →
        g.in_bounds ((scanEdgeLoop g id step n q es pos prev).2.1.sub step) = true) := by
  intro n
  induction n with
  | zero =>
    intro q es pos prev hq hprev
    exact ⟨hq, hprev⟩
  | succ n ih =>
    intro q es pos prev hq hprev
    rw [scanEdgeLoop]
    by_cases hb : g.in_bounds pos = true
    · rw [if_pos hb]
      by_cases hne : g.getIB pos ≠ prev
      · rw [if_pos hne]
        apply ih
        · exact finalizeRun_queue_bounds g hq hprev
        · intro hcl
          rw [V2.add_sub_cancel]
          exact hb
      · rw [if_neg hne]
        apply ih _ _ _ _ hq
        intro hcl
        rw [V2.add_sub_cancel]
        exact hb
    · rw [if_neg hb]
      exact ⟨hq, hprev⟩

theorem scan_edge_queue_bounds (g : Grid) (q : List V2) (es : List Edge)
    (id : Nat) (start step : V2) (count : Int)
    (hq : ∀ v ∈ q, g.in_bounds v = true) :
    ∀ v ∈ (scan_edge g q es id start step count).1, g.in_bounds v = true := by
  rw [scan_edge]
  have h := scanEdgeLoop_queue_bounds g id step count.toNat q es start
    GridSquare.Wall hq (by intro hc; cases hc)
  exact finalizeRun_queue_bounds g h.1 h.2

theorem scan_rect_boundary_queue_bounds (g : Grid) (q : List V2)
    (es : List Edge) (id : Nat) (rect : Rect)
    (hq : ∀ v ∈ q, g.in_bounds v = true) :
    ∀ v ∈ (scan_rect_boundary g q es id rect).1, g.in_bounds v = true := by
  have h1 := scan_edge_queue_bounds g q es id
    ⟨rect.mins.x, rect.mins.y - 1⟩ ⟨1, 0⟩ rect.width hq
  have h2 := scan_edge_queue_bounds g
    (scan_edge g q es id ⟨rect.mins.x, rect.mins.y - 1⟩ ⟨1, 0⟩ rect.width).1
    (scan_edge g q es id ⟨rect.mins.x, rect.mins.y - 1⟩ ⟨1, 0⟩ rect.width).2 id
    ⟨rect.mins.x, rect.maxs.y⟩ ⟨1, 0⟩ rect.width h1
  have h3 := scan_edge_queue_bounds g
    (scan_edge g
      (scan_edge g q es id ⟨rect.mins.x, rect.mins.y - 1⟩ ⟨1, 0⟩ rect.width).1
      (scan_edge g q es id ⟨rect.mins.x, rect.mins.y - 1⟩ ⟨1, 0⟩ rect.width).2 id
      ⟨rect.mins.x, rect.maxs.y⟩ ⟨1, 0⟩ rect.width).1
    (scan_edge g
      (scan_edge g q es id ⟨rect.mins.x, rect.mins.y - 1⟩ ⟨1, 0⟩ rect.width).1
      (scan_edge g q es id ⟨rect.mins.x, rect.mins.y - 1⟩ ⟨1, 0⟩ rect.width).2 id
      ⟨rect.mins.x, rect.maxs.y⟩ ⟨1, 0⟩ rect.width).2 id
    ⟨rect.mins.x - 1, rect.mins.y⟩ ⟨0, 1⟩ rect.height h2
  have h4 := scan_edge_queue_bounds g
    (scan_edge g
      (scan_edge g
        (scan_edge g q es id ⟨rect.mins.x, rect.mins.y - 1⟩ ⟨1, 0⟩ rect.width).1
        (scan_edge g q es id ⟨rect.mins.x, rect.mins.y - 1⟩ ⟨1, 0⟩ rect.width).2 id
        ⟨rect.mins.x, rect.maxs.y⟩ ⟨1, 0⟩ rect.width).1
      (scan_edge g
        (scan_edge g q es id ⟨rect.mins.x, rect.mins.y - 1⟩ ⟨1, 0⟩ rect.width).1
        (scan_edge g q es id ⟨rect.mins.x, rect.mins.y - 1⟩ ⟨1, 0⟩ rect.width).2 id
        ⟨rect.mins.x, rect.maxs.y⟩ ⟨1, 0⟩ rect.width).2 id
      ⟨rect.mins.x - 1, rect.mins.y⟩ ⟨0, 1⟩ rect.height).1
    (scan_edge g
      (scan_edge g
        (scan_edge g q es id ⟨rect.mins.x, rect.mins.y - 1⟩ ⟨1, 0⟩ rect.width).1
        (scan_edge g q es id ⟨rect.mins.x, rect.mins.y - 1⟩ ⟨1, 0⟩ rect.width).2 id
        ⟨rect.mins.x, rect.maxs.y⟩ ⟨1, 0⟩ rect.width).1
      (scan_edge g
        (scan_edge g q es id ⟨rect.mins.x, rect.mins.y - 1⟩ ⟨1, 0⟩ rect.width).1
        (scan_edge g q es id ⟨rect.mins.x, rect.mins.y - 1⟩ ⟨1, 0⟩ rect.width).2 id
        ⟨rect.mins.x, rect.maxs.y⟩ ⟨1, 0⟩ rect.width).2 id
      ⟨rect.mins.x - 1, rect.mins.y⟩ ⟨0, 1⟩ rect.height).2 id
    ⟨rect.maxs.x, rect.mins.y⟩ ⟨0, 1⟩ rect.height h3
  exact h4

theorem claimRect_isSome_of_clear (id : Nat) {g : Grid} {seed : V2} {r : Rect}
    (hcont : r.contains seed = true)
    (hcells : ∀ p : V2, r.contains p = true → g.get? p = some GridSquare.Clear) :
    ∃ g', claimRect id r (r.height).toNat r.mins.y g = some g' := by
  apply claimRect_isSome
  intro q hq1 hq2 hq3 hq4
  have hmm : r.mins.x ≤ seed.x ∧ seed.x < r.maxs.x ∧ r.mins.y ≤ seed.y ∧
      seed.y < r.maxs.y := by
    have := (Rect.contains_iff r seed).mp hcont
    exact ⟨this.1, this.2.2.1, this.2.1, this.2.2.2⟩
  have hqc : r.contains q = true := by
    rw [Rect.contains_iff]
    have hw : ((r.width.toNat : Int)) = r.maxs.x - r.mins.x := by
      rw [Rect.width] at *
      omega
    have hh : ((r.height.toNat : Int)) = r.maxs.y - r.mins.y := by
      rw [Rect.height] at *
      omega
    refine ⟨hq3, hq1, by omega, by omega⟩
  have := hcells q hqc
  exact (Grid.get?_eq_some.mp this).1

theorem extractLoop_no_oob (startC goalC : V2) :
    ∀ (fuel : Nat) (grid : Grid) (nodes : List (Nat × Rect)) (edges : List Edge)
      (queue : List V2) (id : Nat) (sId gId : Option Nat),
      (∀ v ∈ queue, grid.in_bounds v = true) →
      extractLoop startC goalC fuel grid nodes edges queue id sId gId ≠
        ExtractResult.oob := by
  intro fuel
  induction fuel with
  | zero =>
    intro grid nodes edges queue id sId gId hq
    simp [extractLoop]
  | succ n ih =>
    intro grid nodes edges queue id sId gId hq
    cases queue with
    | nil =>
      cases sId with
      | none => simp [extractLoop]
      | some s =>
        cases gId with
        | none => simp [extractLoop]
        | some t => simp [extractLoop, EdgeSetGraph.new]
    | cons seed rest =>
      have hseed : grid.in_bounds seed = true := hq seed (List.mem_cons_self _ _)
      have hrest : ∀ v ∈ rest, grid.in_bounds v = true :=
        fun v hv => hq v (List.mem_cons_of_mem _ hv)
      rw [extractLoop]
      rw [Grid.get?_of_in_bounds hseed]
      show (if grid.getIB seed ≠ GridSquare.Clear then _ else _) ≠ _
      by_cases hsq : grid.getIB seed ≠ GridSquare.Clear
      · rw [if_pos hsq]
        exact ih grid nodes edges rest id sId gId hrest
      · rw [if_neg hsq]
        have hclear : grid.get? seed = some GridSquare.Clear := by
          rw [Grid.get?_of_in_bounds hseed]
          rw [Classical.not_not.mp hsq]
        obtain ⟨r, hgrow, hcont, hcells, hrestspec⟩ := grow_rect_spec grid seed hclear
        rw [hgrow]
        simp only
        obtain ⟨grid₀, hclaim⟩ := claimRect_isSome_of_clear id hcont hcells
        rw [hclaim]
        simp only
        apply ih
        have hdims := (claimRect_sem id r _ _ grid grid₀ hclaim).1
        apply scan_rect_boundary_queue_bounds grid₀ rest edges id r
        intro v hv
        rw [Grid.in_bounds_of_dims hdims.1 hdims.2]
        exact hrest v hv

/-- C9: during a run of `extract_graph` whose start cell lies within the grid
bounds, no out-of-bounds grid access occurs: every `Grid::get`/`Grid::get_mut`
call (the seed check, the growth probes and row scans, the cell-claiming
writes, and the boundary scans) indexes a position inside the
`width × height` grid, so the instrumented run never reports the `oob`
outcome.  (The helper `extractLoop_no_oob` proves this for every fuel.) -/
theorem C9_extract_graph_no_oob (im : Image) (start goal : V2)
    (hin : (Grid.new_from_image im).in_bounds start = true) :
    extract_graph im start goal ≠ ExtractResult.oob := by
  rw [extract_graph]
  apply extractLoop_no_oob
  intro v hv
  rw [List.mem_singleton.mp hv]
  exact hin

/-- One-pixel all-white image used to witness C9. -/
def imgC9 : Image := ⟨1, 1, [255], rfl⟩

/-- C9 witness: the no-out-of-bounds theorem instantiated on a concrete
bitmap with an in-bounds start cell. -/
theorem C9_witness_no_oob :
    (Grid.new_from_image imgC9).in_bounds ⟨0, 0⟩ = true ∧
    extract_graph imgC9 ⟨0, 0⟩ ⟨0, 0⟩ ≠ ExtractResult.oob :=
  ⟨by decide, C9_extract_graph_no_oob imgC9 ⟨0, 0⟩ ⟨0, 0⟩ (by decide)⟩

theorem claimRect_strip_iff {r : Rect} {seed : V2} (hcont : r.contains seed = true)
    (q : V2) :
    (r.mins.y ≤ q.y ∧ q.y < r.mins.y + (r.height).toNat ∧ r.mins.x ≤ q.x ∧
      q.x < r.mins.x + (r.width).toNat) ↔ r.contains q = true := by
  rw [Rect.contains_iff]
  have hs := (Rect.contains_iff r seed).mp hcont
  rw [Rect.width, Rect.height] at *
  constructor
  · intro h
    exact ⟨h.2.2.1, h.1, by omega, by omega⟩
  · intro h
    exact ⟨h.2.1, by omega, h.1, by omega⟩

theorem extractLoop_disjoint (startC goalC : V2) :
    ∀ (fuel : Nat) (grid : Grid) (nodes : List (Nat × Rect)) (edges : List Edge)
      (queue : List V2) (id : Nat) (sId gId : Option Nat) (G : EdgeSetGraph Rect),
      (∀ pr ∈ nodes, ∀ q : V2, pr.2.contains q = true →
        ∃ j, grid.get? q = some (GridSquare.Covered j)) →
      (∀ p1 ∈ nodes, ∀ p2 ∈ nodes, p1.1 ≠ p2.1 → ∀ q : V2,
        ¬(p1.2.contains q = true ∧ p2.2.contains q = true)) →
      extractLoop startC goalC fuel grid nodes edges queue id sId gId =
        ExtractResult.ret (some G) →
      (∀ p1 ∈ G.com.nodes, ∀ p2 ∈ G.com.nodes, p1.1 ≠ p2.1 → ∀ q : V2,
        ¬(p1.2.contains q = true ∧ p2.2.contains q = true)) := by
  intro fuel
  induction fuel with
  | zero =>
    intro grid nodes edges queue id sId gId G hcov hdis h
    rw [extractLoop] at h
    cases h
  | succ n ih =>
    intro grid nodes edges queue id sId gId G hcov hdis h
    cases queue with
    | nil =>
      cases sId with
      | none => rw [extractLoop] at h; cases h
      | some s =>
        cases gId with
        | none => rw [extractLoop] at h; cases h
        | some t =>
          rw [extractLoop] at h
          injection h with h
          injection h with h
          subst h
          exact hdis
    | cons seed rest =>
      rw [extractLoop] at h
      cases hget : grid.get? seed with
      | none => rw [hget] at h; cases h
      | some sq =>
        rw [hget] at h
        simp only at h
        by_cases hsq : sq ≠ GridSquare.Clear
        · rw [if_pos hsq] at h
          exact ih grid nodes edges rest id sId gId G hcov hdis h
        · rw [if_neg hsq] at h
          have hclear : grid.get? seed = some GridSquare.Clear := by
            rw [hget, Classical.not_not.mp hsq]
          obtain ⟨r, hgrow, hcont, hcells, hrestspec⟩ := grow_rect_spec grid seed hclear
          rw [hgrow] at h
          simp only at h
          cases hclaim : claimRect id r (r.height).toNat r.mins.y grid with
          | none => rw [hclaim] at h; cases h
          | some grid₀ =>
            rw [hclaim] at h
            simp only at h
            obtain ⟨hdims, hcovd, hout⟩ := claimRect_sem id r _ _ grid grid₀ hclaim
            apply ih grid₀ (nodes ++ [(id, r)]) _ _ (id + 1) _ _ G _ _ h
            · -- covered invariant for the extended node list
              intro pr hpr q hq
              rcases List.mem_append.mp hpr with hpr | hpr
              · obtain ⟨j, hj⟩ := hcov pr hpr q hq
                refine ⟨j, ?_⟩
                rw [hout q, hj]
                intro hc
                have hqr : r.contains q = true := (claimRect_strip_iff hcont q).mp
                  ⟨hc.1, hc.2.1, hc.2.2.1, hc.2.2.2⟩
                have := hcells q hqr
                rw [hj] at this
                cases this
              · rw [List.mem_singleton.mp hpr] at hq
                refine ⟨id, ?_⟩
                apply hcovd q
                · exact ((claimRect_strip_iff hcont q).mpr hq).1
                · exact ((claimRect_strip_iff hcont q).mpr hq).2.1
                · exact ((claimRect_strip_iff hcont q).mpr hq).2.2.1
                · exact ((claimRect_strip_iff hcont q).mpr hq).2.2.2
            · -- pairwise disjointness for the extended node list
              intro p1 hp1 p2 hp2 hne q hq
              rcases List.mem_append.mp hp1 with hp1 | hp1 <;>
                rcases List.mem_append.mp hp2 with hp2 | hp2
              · exact hdis p1 hp1 p2 hp2 hne q hq
              · obtain ⟨j, hj⟩ := hcov p1 hp1 q hq.1
                rw [List.mem_singleton.mp hp2] at hq
                have := hcells q hq.2
                rw [hj] at this
                cases this
              · obtain ⟨j, hj⟩ := hcov p2 hp2 q hq.2
                rw [List.mem_singleton.mp hp1] at hq
                have := hcells q hq.1
                rw [hj] at this
                cases this
              · rw [List.mem_singleton.mp hp1, List.mem_singleton.mp hp2] at hne
                exact hne rfl

/-- C8: whenever `extract_graph` returns a graph, the rectangles attached to
any two distinct node ids are disjoint: no grid cell lies in both. -/
theorem C8_rectangles_disjoint (im : Image) (start goal : V2)
    (G : EdgeSetGraph Rect)
    (h : extract_graph im start goal = ExtractResult.ret (some G)) :
    ∀ p1 ∈ G.com.nodes, ∀ p2 ∈ G.com.nodes, p1.1 ≠ p2.1 → ∀ q : V2,
      ¬(p1.2.contains q = true ∧ p2.2.contains q = true) := by
  rw [extract_graph] at h
  apply extractLoop_disjoint start goal _ _ [] [] [start] 1 none none G _ _ h
  · intro pr hpr
    cases hpr
  · intro p1 hp1
    cases hp1

/-- Two-by-two image with one wall pixel, used to witness C8: its clear space
decomposes into two rectangles joined by one edge. -/
def imgC8 : Image := ⟨2, 2, [255, 255, 255, 0], rfl⟩

/-- The two-node graph `extract_graph` produces for `imgC8`. -/
def gC8 : EdgeSetGraph Rect :=
  ⟨⟨[(1, ⟨⟨0, 0⟩, ⟨2, 1⟩⟩), (2, ⟨⟨0, 1⟩, ⟨1, 2⟩⟩)], 1, 2⟩, [⟨1, 2⟩]⟩

/-- C8 witness: the disjointness theorem instantiated on the concrete
two-rectangle run on `imgC8`. -/
theorem C8_witness_disjoint :
    extract_graph imgC8 ⟨0, 0⟩ ⟨0, 1⟩ = ExtractResult.ret (some gC8) ∧
    (∀ p1 ∈ gC8.com.nodes, ∀ p2 ∈ gC8.com.nodes, p1.1 ≠ p2.1 → ∀ q : V2,
      ¬(p1.2.contains q = true ∧ p2.2.contains q = true)) :=
  ⟨by decide, C8_rectangles_disjoint imgC8 ⟨0, 0⟩ ⟨0, 1⟩ gC8 (by decide)⟩

theorem getLast?_mem_of_eq {l : List Nat} {x : Nat} (h : l.getLast? = some x) :
    x ∈ l := by
  induction l with
  | nil => cases h
  | cons a t ih =>
    cases t with
    | nil =>
      rw [List.getLast?_singleton] at h
      injection h with h
      rw [h]
      exact List.mem_cons_self _ _
    | cons b t₂ =>
      rw [List.getLast?_cons_cons] at h
      exact List.mem_cons_of_mem _ (ih h)

theorem isWalk_singleton (A : Nat → Nat → Prop) (a : Nat) : IsWalk A a a [a] :=
  ⟨List.chain'_singleton a, rfl, rfl⟩

theorem isWalk_length_pos {A : Nat → Nat → Prop} {a b : Nat} {l : List Nat}
    (h : IsWalk A a b l) : 1 ≤ l.length := by
  cases l with
  | nil => cases h.2.1
  | cons x t => simp

theorem isWalk_cons {A : Nat → Nat → Prop} {a w x : Nat} {l : List Nat}
    (hw : IsWalk A w x l) (ha : A a w) : IsWalk A a x (a :: l) := by
  obtain ⟨hc, hh, hl⟩ := hw
  cases l with
  | nil => cases hh
  | cons w₀ t =>
    injection hh with hh
    subst hh
    refine ⟨List.chain'_cons.mpr ⟨ha, hc⟩, rfl, ?_⟩
    rw [List.getLast?_cons_cons]
    exact hl

theorem isWalk_append_edge {A : Nat → Nat → Prop} {a b c : Nat} {l : List Nat}
    (hw : IsWalk A a b l) (hbc : A b c) : IsWalk A a c (l ++ [c]) := by
  obtain ⟨hc₀, hh, hl⟩ := hw
  refine ⟨?_, ?_, ?_⟩
  · rw [List.chain'_append]
    refine ⟨hc₀, List.chain'_singleton c, ?_⟩
    intro x hx y hy
    rw [hl] at hx
    injection hx with hx
    subst hx
    rw [List.head?_cons] at hy
    injection hy with hy
    subst hy
    exact hbc
  · rw [List.head?_append, hh]
    rfl
  · rw [List.getLast?_append]
    rfl

theorem shortestLen_self (A : Nat → Nat → Prop) (s : Nat) : ShortestLen A s s 0 := by
  refine ⟨⟨[s], isWalk_singleton A s, rfl⟩, ?_⟩
  intro l hl
  exact isWalk_length_pos hl

theorem shortestLen_unique {A : Nat → Nat → Prop} {a b : Nat} {n m : Nat}
    (h₁ : ShortestLen A a b n) (h₂ : ShortestLen A a b m) : n = m := by
  obtain ⟨⟨l₁, hw₁, hl₁⟩, hmin₁⟩ := h₁
  obtain ⟨⟨l₂, hw₂, hl₂⟩, hmin₂⟩ := h₂
  have hn := hmin₁ l₂ hw₂
  have hm := hmin₂ l₁ hw₁
  omega

theorem shortestLen_zero_eq {A : Nat → Nat → Prop} {s u : Nat}
    (h : ShortestLen A s u 0) : u = s := by
  obtain ⟨⟨l, hw, hl⟩, _⟩ := h
  cases l with
  | nil => cases hw.2.1
  | cons x t =>
    cases t with
    | nil =>
      have hh := hw.2.1
      have hg := hw.2.2
      rw [List.head?_cons] at hh
      rw [List.getLast?_singleton] at hg
      injection hh with hh
      injection hg with hg
      rw [← hg, ← hh]
    | cons y t₂ => simp at hl

theorem exists_shortestLen {A : Nat → Nat → Prop} {a b : Nat}
    (h : ∃ l, IsWalk A a b l) : ∃ n, ShortestLen A a b n := by
  classical
  obtain ⟨l, hl⟩ := h
  have hex : ∃ k : Nat, ∃ l₂, IsWalk A a b l₂ ∧ l₂.length = k + 1 := by
    refine ⟨l.length - 1, l, hl, ?_⟩
    have := isWalk_length_pos hl
    omega
  refine ⟨Nat.find hex, Nat.find_spec hex, ?_⟩
  intro l₂ hl₂
  by_contra hlt
  push_neg at hlt
  have hpos := isWalk_length_pos hl₂
  have hsmall : l₂.length - 1 < Nat.find hex := by omega
  exact absurd ⟨l₂, hl₂, by omega⟩ (Nat.find_min hex hsmall)

theorem shortestLen_triangle {A : Nat → Nat → Prop} {s u v : Nat} {n m : Nat}
    (hu : ShortestLen A s u n) (huv : A u v) (hv : ShortestLen A s v m) :
    m ≤ n + 1 := by
  obtain ⟨⟨l, hw, hl⟩, _⟩ := hu
  have hwalk := isWalk_append_edge hw huv
  have := hv.2 _ hwalk
  rw [List.length_append, hl] at this
  simpa using this

theorem walk_crossing {A : Nat → Nat → Prop} {Q : Nat → Prop} [DecidablePred Q] :
    ∀ (l : List Nat) (a b : Nat), IsWalk A a b l → Q a → ¬ Q b →
      ∃ x y lx, A x y ∧ Q x ∧ ¬ Q y ∧ IsWalk A a x lx ∧
        lx.length + 1 ≤ l.length := by
  intro l
  induction l with
  | nil =>
    intro a b hw
    cases hw.2.1
  | cons v l₂ ih =>
    intro a b hw hQa hQb
    have hv : v = a := by
      have h₂ := hw.2.1
      rw [List.head?_cons] at h₂
      exact Option.some.inj h₂
    subst hv
    cases l₂ with
    | nil =>
      have := hw.2.2
      rw [List.getLast?_singleton] at this
      injection this with h
      subst h
      exact absurd hQa hQb
    | cons w l₃ =>
      have hchain := hw.1
      have haw : A v w := (List.chain'_cons.mp hchain).1
      have hwalk₂ : IsWalk A w b (w :: l₃) := by
        refine ⟨(List.chain'_cons.mp hchain).2, rfl, ?_⟩
        have := hw.2.2
        rw [List.getLast?_cons_cons] at this
        exact this
      by_cases hQw : Q w
      · obtain ⟨x, y, lx, hxy, hQx, hQy, hwx, hlen⟩ := ih w b hwalk₂ hQw hQb
        refine ⟨x, y, v :: lx, hxy, hQx, hQy, isWalk_cons hwx haw, ?_⟩
        simp only [List.length_cons] at *
        omega
      · exact ⟨v, w, [v], haw, hQa, hQw, isWalk_singleton A v, by simp⟩

theorem exists_dup_split :
    ∀ (l : List Nat), ¬ l.Nodup →
      ∃ v l₁ l₂ l₃, l = l₁ ++ v :: l₂ ++ v :: l₃ := by
  intro l
  induction l with
  | nil => intro h; exact absurd List.nodup_nil h
  | cons a t ih =>
    intro h
    by_cases hat : a ∈ t
    · obtain ⟨s₂, t₂, rfl⟩ := List.append_of_mem hat
      exact ⟨a, [], s₂, t₂, by simp⟩
    · have hnt : ¬ t.Nodup := by
        intro hc
        exact h (List.nodup_cons.mpr ⟨hat, hc⟩)
      obtain ⟨v, l₁, l₂, l₃, rfl⟩ := ih hnt
      exact ⟨v, a :: l₁, l₂, l₃, by simp⟩

theorem walk_dedup {A : Nat → Nat → Prop} :
    ∀ (k : Nat) (l : List Nat) (a b : Nat), l.length ≤ k → IsWalk A a b l →
      ∃ l₂, IsWalk A a b l₂ ∧ l₂.length ≤ l.length ∧ l₂.Nodup ∧
        ∀ v ∈ l₂, v ∈ l := by
  intro k
  induction k with
  | zero =>
    intro l a b hlen hw
    have := isWalk_length_pos hw
    omega
  | succ k ih =>
    intro l a b hlen hw
    by_cases hnd : l.Nodup
    · exact ⟨l, hw, le_refl _, hnd, fun v hv => hv⟩
    · obtain ⟨v, l₁, l₂, l₃, rfl⟩ := exists_dup_split l hnd
      obtain ⟨hc, hh, hl⟩ := hw
      have hc₂ : (l₁ ++ v :: l₂ ++ v :: l₃).Chain' A := hc
      -- the shortened walk l₁ ++ v :: l₃ is still a walk from a to b
      have hcut : IsWalk A a b (l₁ ++ v :: l₃) := by
        refine ⟨?_, ?_, ?_⟩
        · rw [List.chain'_append] at hc
          obtain ⟨hcl₁₂, hcrest, hlink₁⟩ := hc
          rw [List.chain'_append] at hcl₁₂
          obtain ⟨hcl₁, hcl₂, hlink₂⟩ := hcl₁₂
          rw [List.chain'_append]
          refine ⟨hcl₁, hcrest, ?_⟩
          intro x hx y hy
          rw [List.head?_cons] at hy
          injection hy with hy
          subst hy
          have := hlink₂ x hx v (by simp)
          exact this
        · rw [List.head?_append, List.head?_append, List.head?_cons] at hh
          rw [List.head?_append, List.head?_cons]
          cases h₁ : l₁.head? with
          | none =>
            rw [h₁] at hh
            simpa using hh
          | some w =>
            rw [h₁] at hh
            simpa using hh
        · rw [List.getLast?_append] at hl
          rw [List.getLast?_append]
          cases hz : (v :: l₃).getLast? with
          | none =>
            exfalso
            rw [List.getLast?_eq_none_iff] at hz
            cases hz
          | some z =>
            rw [hz] at hl
            exact hl
      have hshort : (l₁ ++ v :: l₃).length < (l₁ ++ v :: l₂ ++ v :: l₃).length := by
        simp
        omega
      obtain ⟨l₄, hw₄, hlen₄, hnd₄, hsub₄⟩ :=
        ih (l₁ ++ v :: l₃) a b (by simp at hlen hshort ⊢; omega) hcut
      refine ⟨l₄, hw₄, by omega, hnd₄, ?_⟩
      intro x hx
      have := hsub₄ x hx
      simp at this ⊢
      tauto

theorem nodup_subset_length {l N : List Nat} (hnd : l.Nodup)
    (hsub : ∀ v ∈ l, v ∈ N) : l.length ≤ N.length := by
  calc l.length = l.toFinset.card := (List.toFinset_card_of_nodup hnd).symm
    _ ≤ N.toFinset.card := Finset.card_le_card (by
        intro x hx
        rw [List.mem_toFinset] at hx ⊢
        exact hsub x hx)
    _ ≤ N.length := List.toFinset_card_le N

theorem walk_mem_of_adj {A : Nat → Nat → Prop} {N : List Nat}
    (hA : ∀ x y, A x y → y ∈ N) :
    ∀ (l : List Nat) (a b : Nat), IsWalk A a b l → a ∈ N → ∀ v ∈ l, v ∈ N := by
  intro l
  induction l with
  | nil =>
    intro a b hw ha v hv
    cases hv
  | cons x t ih =>
    intro a b hw ha v hv
    have hx : x = a := by
      have h₂ := hw.2.1
      rw [List.head?_cons] at h₂
      exact Option.some.inj h₂
    subst hx
    cases t with
    | nil =>
      rw [List.mem_singleton.mp hv]
      exact ha
    | cons y t₂ =>
      have hxy : A x y := (List.chain'_cons.mp hw.1).1
      have hwt : IsWalk A y b (y :: t₂) := by
        refine ⟨(List.chain'_cons.mp hw.1).2, rfl, ?_⟩
        have := hw.2.2
        rw [List.getLast?_cons_cons] at this
        exact this
      rcases List.mem_cons.mp hv with rfl | hv₂
      · exact ha
      · exact ih y b hwt (hA x y hxy) v hv₂

theorem shortestLen_le_card {A : Nat → Nat → Prop} {N : List Nat} {s v : Nat}
    {n : Nat} (hA : ∀ x y, A x y → y ∈ N) (hs : s ∈ N)
    (h : ShortestLen A s v n) : n + 1 ≤ N.length := by
  obtain ⟨⟨l, hw, hl⟩, hmin⟩ := h
  obtain ⟨l₂, hw₂, hlen₂, hnd₂, hsub₂⟩ := walk_dedup l.length l s v (le_refl _) hw
  have hge := hmin l₂ hw₂
  have hsubN : ∀ x ∈ l₂, x ∈ N :=
    fun x hx => walk_mem_of_adj hA l₂ s v hw₂ hs x hx
  have := nodup_subset_length hnd₂ hsubN
  omega

theorem mem_changePriority {q : List (Nat × Int)} {v : Nat} {np : Int}
    (hnd : (q.map Prod.fst).Nodup) :
    ∀ e ∈ changePriority q v np, e = (v, np) ∨ (e ∈ q ∧ e.1 ≠ v) := by
  induction q with
  | nil => intro e he; cases he
  | cons p rest ih =>
    obtain ⟨k, pr⟩ := p
    intro e he
    rw [changePriority] at he
    by_cases hk : k = v
    · rw [if_pos hk] at he
      rcases List.mem_cons.mp he with rfl | he₂
      · left
        rw [hk]
      · right
        refine ⟨List.mem_cons_of_mem _ he₂, ?_⟩
        intro hc
        rw [List.map_cons, List.nodup_cons] at hnd
        apply hnd.1
        rw [hk, ← hc]
        exact List.mem_map.mpr ⟨e, he₂, rfl⟩
    · rw [if_neg hk] at he
      rcases List.mem_cons.mp he with rfl | he₂
      · right
        exact ⟨List.mem_cons_self _ _, hk⟩
      · rcases ih (by rw [List.map_cons, List.nodup_cons] at hnd; exact hnd.2) e he₂ with
          h | ⟨h₁, h₂⟩
        · exact Or.inl h
        · exact Or.inr ⟨List.mem_cons_of_mem _ h₁, h₂⟩

/-- The loop invariant of `into_dijkstra`, relating the distance map and the
priority queue to the graph: keys cover exactly the nodes, queue entries are
keyed consistently with the distance map, stored distances are nonnegative
with the start pinned at 0, every already-popped reachable node holds its
true shortest distance, every stored distance of a reachable node is at
least its true distance, and every popped reachable node has relaxed all its
neighbors. -/
def DijkInv (adjs : List (Nat × List Nat)) (s : Nat) (N : List Nat)
    (dists : List (Nat × Option Int)) (queue : List (Nat × Int)) : Prop :=
  dists.map Prod.fst = N ∧
  (queue.map Prod.fst).Nodup ∧
  (∀ e ∈ queue, e.1 ∈ N ∧ ∃ dv, alLookup dists e.1 = some dv ∧ e.2 = dv.getD I32MAX) ∧
  (∀ v m, alLookup dists v = some (some m) → 0 ≤ m) ∧
  alLookup dists s = some (some 0) ∧
  (∀ v ∈ N, v ∉ queue.map Prod.fst → ∀ n, ShortestLen (agAdj adjs) s v n →
    alLookup dists v = some (some (n : Int))) ∧
  (∀ v m, alLookup dists v = some (some m) → ∀ n, ShortestLen (agAdj adjs) s v n →
    (n : Int) ≤ m) ∧
  (∀ u ∈ N, u ∉ queue.map Prod.fst → ∀ n, ShortestLen (agAdj adjs) s u n →
    ∀ v, agAdj adjs u v → ∃ m, alLookup dists v = some (some m) ∧ m ≤ (n : Int) + 1)

theorem dijk_pop_correct {adjs : List (Nat × List Nat)} {s : Nat} {N : List Nat}
    (hadjN : ∀ a b, agAdj adjs a b → b ∈ N) (hs : s ∈ N)
    (hNlen : (N.length : Int) < I32MAX)
    {dists : List (Nat × Option Int)} {queue : List (Nat × Int)}
    {u : Nat} {k : Int} {q₀ : List (Nat × Int)}
    (hinv : DijkInv adjs s N dists queue)
    (hpop : popMin queue = some ((u, k), q₀)) :
    ∀ n, ShortestLen (agAdj adjs) s u n →
      alLookup dists u = some (some (n : Int)) := by
  obtain ⟨hkeys, hqnd, hcoup, hnn, hs0, hI3, hUB, hI8⟩ := hinv
  intro n hn
  have hMAX : I32MAX = 2147483647 := rfl
  have humem : (u, k) ∈ queue := (popMin_perm hpop).mem_iff.mpr (List.mem_cons_self _ _)
  obtain ⟨_, du, hdu, hk⟩ := hcoup (u, k) humem
  by_cases hus : u = s
  · subst hus
    have hn0 : n = 0 := shortestLen_unique hn (shortestLen_self _ _)
    subst hn0
    simpa using hs0
  · by_cases hsq : s ∈ queue.map Prod.fst
    · obtain ⟨es, hes, hesfst⟩ := List.mem_map.mp hsq
      obtain ⟨_, dvs, hdvs, hks⟩ := hcoup es hes
      rw [hesfst] at hdvs
      rw [hs0] at hdvs
      injection hdvs with hdvs
      rw [← hdvs] at hks
      have hmin := popMin_min hpop es hes
      cases du with
      | none =>
        rw [hk] at hmin
        rw [hks] at hmin
        simp [hMAX] at hmin
      | some m =>
        have h0m := hnn u m hdu
        rw [hk, hks] at hmin
        simp at hmin
        have hnm := hUB u m hdu n hn
        have hn0 : n = 0 := by omega
        subst hn0
        exact absurd (shortestLen_zero_eq hn) hus
    · obtain ⟨l, hw, hl⟩ := hn.1
      have huq : u ∈ queue.map Prod.fst := List.mem_map.mpr ⟨(u, k), humem, rfl⟩
      obtain ⟨x, y, lx, hxy, hQx, hQy, hwx, hlenx⟩ :=
        walk_crossing (Q := fun w => w ∉ queue.map Prod.fst) l s u hw
          hsq (by simpa using huq)
      have hyq : y ∈ queue.map Prod.fst := by
        by_contra hc
        exact hQy hc
      obtain ⟨δx, hδx⟩ := exists_shortestLen ⟨lx, hwx⟩
      have hδlen : δx + 1 ≤ lx.length := hδx.2 lx hwx
      have hxN : x ∈ N :=
        walk_mem_of_adj hadjN lx s x hwx hs x (getLast?_mem_of_eq hwx.2.2)
      obtain ⟨m, hm, hmle⟩ := hI8 x hxN hQx δx hδx y hxy
      obtain ⟨ey, hey, heyfst⟩ := List.mem_map.mp hyq
      obtain ⟨_, dvy, hdvy, hky⟩ := hcoup ey hey
      rw [heyfst, hm] at hdvy
      injection hdvy with hdvy
      rw [← hdvy] at hky
      have hminy := popMin_min hpop ey hey
      rw [hk, hky] at hminy
      simp at hminy
      have hbound := shortestLen_le_card hadjN hs hn
      have hllen : l.length = n + 1 := hl
      cases du with
      | none =>
        exfalso
        simp at hminy
        have h1 : (n : Int) < I32MAX := by
          have h₂ : ((n : Int) + 1) ≤ (N.length : Int) := by exact_mod_cast hbound
          omega
        have hchain : I32MAX ≤ (n : Int) := by
          calc I32MAX ≤ m := hminy
            _ ≤ (δx : Int) + 1 := hmle
            _ ≤ (lx.length : Int) := by exact_mod_cast hδlen
            _ ≤ (n : Int) := by
                have h₃ : lx.length ≤ n := by omega
                exact_mod_cast h₃
        omega
      | some mu =>
        simp at hminy
        have hle : mu ≤ (n : Int) := by
          calc mu ≤ m := hminy
            _ ≤ (δx : Int) + 1 := hmle
            _ ≤ (lx.length : Int) := by exact_mod_cast hδlen
            _ ≤ (n : Int) := by
                have h₃ : lx.length ≤ n := by omega
                exact_mod_cast h₃
        have hge := hUB u mu hdu n hn
        have heq : mu = (n : Int) := le_antisymm hle hge
        rw [hdu, heq]

theorem relaxAll_dijk (adjs : List (Nat × List Nat)) (s : Nat) (u : Nat) :
    ∀ (ns : List Nat) (dists : List (Nat × Option Int)) (paths : List (Nat × Nat))
      (queue : List (Nat × Int))
      (out : List (Nat × Option Int) × List (Nat × Nat) × List (Nat × Int)),
      relaxAll u ns dists paths queue = some out →
      (queue.map Prod.fst).Nodup →
      (∀ v m, alLookup dists v = some (some m) → 0 ≤ m) →
      (∀ e ∈ queue, ∃ dv, alLookup dists e.1 = some dv ∧ e.2 = dv.getD I32MAX) →
      (∀ v m, alLookup dists v = some (some m) → ∀ nv, ShortestLen (agAdj adjs) s v nv →
        (nv : Int) ≤ m) →
      (∀ v ∈ ns, ∀ nv, ShortestLen (agAdj adjs) s v nv →
        ∀ du, alLookup dists u = some du → (nv : Int) ≤ du.getD 0 + 1) →
      out.1.map Prod.fst = dists.map Prod.fst ∧
      out.2.2.map Prod.fst = queue.map Prod.fst ∧
      (∀ v m, alLookup out.1 v = some (some m) → 0 ≤ m) ∧
      (∀ e ∈ out.2.2, ∃ dv, alLookup out.1 e.1 = some dv ∧ e.2 = dv.getD I32MAX) ∧
      (∀ v m, alLookup dists v = some (some m) →
        ∃ m₂, alLookup out.1 v = some (some m₂) ∧ m₂ ≤ m) ∧
      (∀ v m, alLookup out.1 v = some (some m) → ∀ nv, ShortestLen (agAdj adjs) s v nv →
        (nv : Int) ≤ m) ∧
      (∀ dU, alLookup dists u = some (some dU) → dU + 1 < I32MAX →
        ∀ v ∈ ns, ∃ m, alLookup out.1 v = some (some m) ∧ m ≤ dU + 1) := by
  intro ns
  induction ns with
  | nil =>
    intro dists paths queue out hrel hqnd hnn hcoup hUB hsafe
    rw [relaxAll] at hrel
    injection hrel with hrel
    subst hrel
    refine ⟨rfl, rfl, hnn, hcoup, ?_, hUB, ?_⟩
    · intro v m h
      exact ⟨m, h, le_refl _⟩
    · intro dU hdU hlt v hv
      cases hv
  | cons v vs ih =>
    intro dists paths queue out hrel hqnd hnn hcoup hUB hsafe
    rw [relaxAll] at hrel
    cases hdu : alLookup dists u with
    | none => rw [hdu] at hrel; cases hrel
    | some du =>
      rw [hdu] at hrel
      simp only at hrel
      cases hdv : alLookup dists v with
      | none => rw [hdv] at hrel; cases hrel
      | some dv =>
        rw [hdv] at hrel
        simp only at hrel
        by_cases hlt : du.getD 0 + 1 < dv.getD I32MAX
        · rw [if_pos hlt] at hrel
          have hvkey : v ∈ dists.map Prod.fst :=
            (alLookup_isSome_iff dists v).mp (by rw [hdv]; rfl)
          have hkeys₂ : (alInsert dists v (some (du.getD 0 + 1))).map Prod.fst =
              dists.map Prod.fst := alInsert_map_fst_of_mem _ hvkey
          have hlkself : alLookup (alInsert dists v (some (du.getD 0 + 1))) v =
              some (some (du.getD 0 + 1)) := alLookup_alInsert_self _ _ _
          have hlkne : ∀ w, w ≠ v →
              alLookup (alInsert dists v (some (du.getD 0 + 1))) w = alLookup dists w :=
            fun w hw => alLookup_alInsert_ne _ _ _ _ hw
          have hnd1 : 1 ≤ du.getD 0 + 1 := by
            cases du with
            | none => simp
            | some d =>
              have := hnn u d hdu
              simp only [Option.getD_some]
              omega
          have hnn₂ : ∀ w m,
              alLookup (alInsert dists v (some (du.getD 0 + 1))) w = some (some m) →
              0 ≤ m := by
            intro w m h
            by_cases hwv : w = v
            · subst hwv
              rw [hlkself] at h
              injection h with h
              injection h with h
              omega
            · rw [hlkne w hwv] at h
              exact hnn w m h
          have hcoup₂ : ∀ e ∈ changePriority queue v (du.getD 0 + 1),
              ∃ dv₂, alLookup (alInsert dists v (some (du.getD 0 + 1))) e.1 = some dv₂ ∧
                e.2 = dv₂.getD I32MAX := by
            intro e he
            rcases mem_changePriority hqnd e he with rfl | ⟨he₂, hne⟩
            · exact ⟨some (du.getD 0 + 1), hlkself, rfl⟩
            · obtain ⟨dv₂, h1, h2⟩ := hcoup e he₂
              exact ⟨dv₂, by rw [hlkne e.1 hne, h1], h2⟩
          have hUB₂ : ∀ w m,
              alLookup (alInsert dists v (some (du.getD 0 + 1))) w = some (some m) →
              ∀ nv, ShortestLen (agAdj adjs) s w nv → (nv : Int) ≤ m := by
            intro w m h nv hnv
            by_cases hwv : w = v
            · subst hwv
              rw [hlkself] at h
              injection h with h
              injection h with h
              rw [← h]
              exact hsafe w (List.mem_cons_self _ _) nv hnv du hdu
            · rw [hlkne w hwv] at h
              exact hUB w m h nv hnv
          have hsafe₂ : ∀ w ∈ vs, ∀ nv, ShortestLen (agAdj adjs) s w nv →
              ∀ du₂, alLookup (alInsert dists v (some (du.getD 0 + 1))) u = some du₂ →
              (nv : Int) ≤ du₂.getD 0 + 1 := by
            intro w hw nv hnv du₂ hdu₂
            by_cases huv : u = v
            · subst huv
              rw [hlkself] at hdu₂
              injection hdu₂ with hdu₂
              have hbase := hsafe w (List.mem_cons_of_mem _ hw) nv hnv du hdu
              rw [← hdu₂]
              simp only [Option.getD_some]
              omega
            · rw [hlkne u huv] at hdu₂
              exact hsafe w (List.mem_cons_of_mem _ hw) nv hnv du₂ hdu₂
          obtain ⟨ihk, ihq, ihnn, ihcoup, ihmono, ihUB, ihI8⟩ :=
            ih (alInsert dists v (some (du.getD 0 + 1))) (alInsert paths v u)
              (changePriority queue v (du.getD 0 + 1)) out hrel
              (by rw [changePriority_map_fst]; exact hqnd) hnn₂ hcoup₂ hUB₂ hsafe₂
          refine ⟨?_, ?_, ihnn, ihcoup, ?_, ihUB, ?_⟩
          · rw [ihk, hkeys₂]
          · rw [ihq, changePriority_map_fst]
          · intro w m h
            by_cases hwv : w = v
            · subst hwv
              rw [hdv] at h
              injection h with h
              obtain ⟨m₂, hm₂, hle₂⟩ := ihmono w (du.getD 0 + 1) hlkself
              refine ⟨m₂, hm₂, ?_⟩
              have hgd : dv.getD I32MAX = m := by rw [h]; rfl
              omega
            · obtain ⟨m₂, hm₂, hle₂⟩ := ihmono w m
                (by rw [hlkne w hwv]; exact h)
              exact ⟨m₂, hm₂, hle₂⟩
          · intro dU hdU hltM w hw
            injection hdU with hdU
            have huv : u ≠ v := by
              intro hc
              subst hc
              rw [hdu] at hdv
              injection hdv with hdv₂
              rw [← hdv₂, hdU] at hlt
              simp only [Option.getD_some] at hlt
              omega
            rcases List.mem_cons.mp hw with rfl | hw₂
            · obtain ⟨m₂, hm₂, hle₂⟩ := ihmono w (du.getD 0 + 1) hlkself
              refine ⟨m₂, hm₂, ?_⟩
              have hgd : du.getD 0 = dU := by rw [hdU]; rfl
              omega
            · have hlk : alLookup (alInsert dists v (some (du.getD 0 + 1))) u =
                  some (some dU) := by
                rw [hlkne u huv, hdu, hdU]
              exact ihI8 dU hlk hltM w hw₂
        · rw [if_neg hlt] at hrel
          obtain ⟨ihk, ihq, ihnn, ihcoup, ihmono, ihUB, ihI8⟩ :=
            ih dists paths queue out hrel hqnd hnn hcoup hUB
              (fun w hw nv hnv du₂ h => hsafe w (List.mem_cons_of_mem _ hw) nv hnv du₂ h)
          refine ⟨ihk, ihq, ihnn, ihcoup, ihmono, ihUB, ?_⟩
          intro dU hdU hltM w hw
          injection hdU with hdU
          have hgd : du.getD 0 = dU := by rw [hdU]; rfl
          rcases List.mem_cons.mp hw with rfl | hw₂
          · have hge : dv.getD I32MAX ≤ du.getD 0 + 1 := le_of_not_lt hlt
            cases dv with
            | none =>
              exfalso
              simp only [Option.getD_none] at hge
              omega
            | some o =>
              obtain ⟨m₂, hm₂, hle₂⟩ := ihmono w o hdv
              refine ⟨m₂, hm₂, ?_⟩
              simp only [Option.getD_some] at hge
              omega
          · exact ihI8 dU (by rw [hdu, hdU]) hltM w hw₂

set_option maxRecDepth 4000 in
theorem dijkstraLoop_dijk {adjs : List (Nat × List Nat)} {s : Nat} {N : List Nat}
    (hadjN : ∀ a b, agAdj adjs a b → b ∈ N)
    (hadjsym : ∀ a b, agAdj adjs a b → agAdj adjs b a)
    (hs : s ∈ N) (hNlen : (N.length : Int) < I32MAX) :
    ∀ (fuel : Nat) (dists : List (Nat × Option Int)) (paths : List (Nat × Nat))
      (queue : List (Nat × Int)) (out : List (Nat × Option Int) × List (Nat × Nat)),
      dijkstraLoop adjs fuel dists paths queue = some out →
      queue.length ≤ fuel →
      DijkInv adjs s N dists queue →
      ∀ v ∈ N, ∀ n, ShortestLen (agAdj adjs) s v n →
        alLookup out.1 v = some (some (n : Int)) := by
  intro fuel
  induction fuel with
  | zero =>
    intro dists paths queue out hrun hlen hinv v hv n hn
    have hq : queue = [] := List.length_eq_zero.mp (Nat.le_zero.mp hlen)
    subst hq
    rw [dijkstraLoop] at hrun
    injection hrun with hrun
    subst hrun
    exact hinv.2.2.2.2.2.1 v hv (by simp) n hn
  | succ fuel ih =>
    intro dists paths queue out hrun hlen hinv v hv n hn
    rw [dijkstraLoop] at hrun
    cases hpop : popMin queue with
    | none =>
      rw [hpop] at hrun
      injection hrun with hrun
      subst hrun
      have hq : queue = [] := (popMin_none_iff queue).mp hpop
      subst hq
      exact hinv.2.2.2.2.2.1 v hv (by simp) n hn
    | some pr =>
      obtain ⟨⟨u, k⟩, q₀⟩ := pr
      rw [hpop] at hrun
      simp only at hrun
      cases hns : alLookup adjs u with
      | none => rw [hns] at hrun; cases hrun
      | some ns =>
        rw [hns] at hrun
        simp only at hrun
        cases hrel : relaxAll u ns dists paths q₀ with
        | none => rw [hrel] at hrun; cases hrun
        | some res =>
          obtain ⟨dists₀, paths₀, queue₁⟩ := res
          rw [hrel] at hrun
          simp only at hrun
          have hpopc := dijk_pop_correct hadjN hs hNlen hinv hpop
          obtain ⟨hkeys, hqnd, hcoup, hnn, hs0, hI3, hUB, hI8⟩ := hinv
          have hperm := popMin_perm hpop
          have hpk : (queue.map Prod.fst).Perm (u :: q₀.map Prod.fst) := by
            have := hperm.map Prod.fst
            simpa using this
          have hnd₂ : (u :: q₀.map Prod.fst).Nodup := hpk.nodup_iff.mp hqnd
          have huq₀ : u ∉ q₀.map Prod.fst := (List.nodup_cons.mp hnd₂).1
          have hq₀nd : (q₀.map Prod.fst).Nodup := (List.nodup_cons.mp hnd₂).2
          have hq₀sub : ∀ e ∈ q₀, e ∈ queue :=
            fun e he => hperm.mem_iff.mpr (List.mem_cons_of_mem _ he)
          have hsafe : ∀ w ∈ ns, ∀ nv, ShortestLen (agAdj adjs) s w nv →
              ∀ du, alLookup dists u = some du → (nv : Int) ≤ du.getD 0 + 1 := by
            intro w hw nv hnv du hdu
            have hadj_uw : agAdj adjs u w := by
              show w ∈ (alLookup adjs u).getD []
              rw [hns]
              exact hw
            obtain ⟨lw, hww, _⟩ := hnv.1
            have hwu : IsWalk (agAdj adjs) s u (lw ++ [u]) :=
              isWalk_append_edge hww (hadjsym u w hadj_uw)
            obtain ⟨nu, hnu⟩ := exists_shortestLen ⟨lw ++ [u], hwu⟩
            have hlk := hpopc nu hnu
            rw [hdu] at hlk
            simp only [Option.some.injEq] at hlk
            rw [hlk]
            simp only [Option.getD_some]
            have := shortestLen_triangle hnu hadj_uw hnv
            exact_mod_cast this
          obtain ⟨rk, rq, rnn, rcoup, rmono, rUB, rI8⟩ :=
            relaxAll_dijk adjs s u ns dists paths q₀ (dists₀, paths₀, queue₁) hrel
              hq₀nd hnn (fun e he => (hcoup e (hq₀sub e he)).2) hUB hsafe
          have hinv₂ : DijkInv adjs s N dists₀ queue₁ := by
            refine ⟨rk.trans hkeys, ?_, ?_, rnn, ?_, ?_, rUB, ?_⟩
            · rw [rq]
              exact hq₀nd
            · intro e he
              obtain ⟨dv, hdv, hpr⟩ := rcoup e he
              refine ⟨?_, dv, hdv, hpr⟩
              have : e.1 ∈ dists₀.map Prod.fst :=
                (alLookup_isSome_iff dists₀ e.1).mp (by rw [hdv]; rfl)
              rw [rk, hkeys] at this
              exact this
            · obtain ⟨m₂, hm₂, hle₂⟩ := rmono s 0 hs0
              have h0 := rnn s m₂ hm₂
              have : m₂ = 0 := le_antisymm hle₂ h0
              rw [hm₂, this]
            · intro w hwN hwq nw hnw
              rw [rq] at hwq
              by_cases hwqueue : w ∈ queue.map Prod.fst
              · have hwu : w = u := by
                  rcases List.mem_cons.mp (hpk.mem_iff.mp hwqueue) with h | h
                  · exact h
                  · exact absurd h hwq
                subst hwu
                obtain ⟨m₂, hm₂, hle₂⟩ := rmono w ((nw : Int)) (hpopc nw hnw)
                have hge₂ := rUB w m₂ hm₂ nw hnw
                have : m₂ = (nw : Int) := le_antisymm hle₂ hge₂
                rw [hm₂, this]
              · obtain ⟨m₂, hm₂, hle₂⟩ := rmono w ((nw : Int)) (hI3 w hwN hwqueue nw hnw)
                have hge₂ := rUB w m₂ hm₂ nw hnw
                have : m₂ = (nw : Int) := le_antisymm hle₂ hge₂
                rw [hm₂, this]
            · intro u₂ hu₂N hu₂q nu₂ hnu₂ w hadj
              rw [rq] at hu₂q
              by_cases hu₂queue : u₂ ∈ queue.map Prod.fst
              · have hu₂u : u₂ = u := by
                  rcases List.mem_cons.mp (hpk.mem_iff.mp hu₂queue) with h | h
                  · exact h
                  · exact absurd h hu₂q
                subst hu₂u
                have hwns : w ∈ ns := by
                  have : w ∈ (alLookup adjs u₂).getD [] := hadj
                  rw [hns] at this
                  exact this
                have hcard := shortestLen_le_card hadjN hs hnu₂
                have hlt : (nu₂ : Int) + 1 < I32MAX := by
                  have h₂ : ((nu₂ : Int) + 1) ≤ (N.length : Int) := by exact_mod_cast hcard
                  omega
                exact rI8 (nu₂ : Int) (hpopc nu₂ hnu₂) hlt w hwns
              · obtain ⟨m, hm, hmle⟩ := hI8 u₂ hu₂N hu₂queue nu₂ hnu₂ w hadj
                obtain ⟨m₂, hm₂, hle₂⟩ := rmono w m hm
                exact ⟨m₂, hm₂, le_trans hle₂ hmle⟩
          have hlen₂ : queue₁.length ≤ fuel := by
            have h₁ : queue₁.length = q₀.length := by
              have := congrArg List.length rq
              simpa using this
            have h₂ : queue.length = q₀.length + 1 := by
              have := hperm.length_eq
              simpa using this
            omega
          exact ih dists₀ paths₀ queue₁ out hrun hlen₂ hinv₂ v hv n hn

theorem alLookup_of_mem_nodup {α : Type} {l : List (Nat × α)} {k : Nat} {v : α}
    (hnd : (l.map Prod.fst).Nodup) (h : (k, v) ∈ l) : alLookup l k = some v := by
  induction l with
  | nil => cases h
  | cons p rest ih =>
    obtain ⟨k₀, v₀⟩ := p
    rw [List.map_cons, List.nodup_cons] at hnd
    rcases List.mem_cons.mp h with heq | h₂
    · rw [Prod.mk.injEq] at heq
      obtain ⟨h1, h2⟩ := heq
      subst h1
      subst h2
      rw [alLookup, if_pos rfl]
    · rw [alLookup]
      by_cases hk : k₀ = k
      · exfalso
        apply hnd.1
        rw [hk]
        exact List.mem_map.mpr ⟨(k, v), h₂, rfl⟩
      · rw [if_neg hk]
        exact ih hnd.2 h₂

theorem alLookup_mapVal {α β : Type} (g : Nat × α → β) :
    ∀ (l : List (Nat × α)) (k : Nat),
      alLookup (l.map (fun p => (p.1, g p))) k =
        (alLookup l k).map (fun v => g (k, v)) := by
  intro l
  induction l with
  | nil => intro k; rfl
  | cons p rest ih =>
    obtain ⟨k₀, v₀⟩ := p
    intro k
    rw [List.map_cons]
    show (if k₀ = k then some (g (k₀, v₀)) else alLookup (rest.map _) k) = _
    by_cases h : k₀ = k
    · subst h
      rw [if_pos rfl, alLookup, if_pos rfl]
      rfl
    · rw [if_neg h, alLookup, if_neg h]
      exact ih k

theorem map_fst_mapVal {α β : Type} (g : Nat × α → β) (l : List (Nat × α)) :
    (l.map (fun p => (p.1, g p))).map Prod.fst = l.map Prod.fst := by
  induction l with
  | nil => rfl
  | cons p rest ih => simp [ih]

theorem mem_deadEndsOf {Data : Type} {start goal : Nat} {nodes : List (Nat × Data)}
    {edges : List Edge} {x : Nat} :
    x ∈ deadEndsOf start goal nodes edges ↔
      (∃ d, (x, d) ∈ nodes) ∧ degreeOf edges x < 2 ∧ x ≠ start ∧ x ≠ goal := by
  constructor
  · intro h
    obtain ⟨p, hp, hpx⟩ := List.mem_map.mp h
    obtain ⟨hpn, hcond⟩ := List.mem_filter.mp hp
    simp only [Bool.and_eq_true, decide_eq_true_eq, bne_iff_ne] at hcond
    obtain ⟨k, d⟩ := p
    obtain rfl : k = x := hpx
    exact ⟨⟨d, hpn⟩, hcond.1.1, hcond.1.2, hcond.2⟩
  · intro ⟨⟨d, hd⟩, hdeg, hst, hgl⟩
    refine List.mem_map.mpr ⟨(x, d), List.mem_filter.mpr ⟨hd, ?_⟩, rfl⟩
    simp only [Bool.and_eq_true, decide_eq_true_eq, bne_iff_ne]
    exact ⟨⟨hdeg, hst⟩, hgl⟩

theorem Edge.new_eq_imp {a w z : Nat} (h : Edge.new a w = Edge.new w z) : a = z := by
  simp only [Edge.new, Edge.mk.injEq, Nat.min_def, Nat.max_def] at h
  split_ifs at h <;> omega

theorem two_le_countP {α : Type} {p : α → Bool} {l : List α} {a b : α}
    (ha : a ∈ l) (hb : b ∈ l) (hab : a ≠ b) (hpa : p a) (hpb : p b) :
    2 ≤ l.countP p := by
  induction l with
  | nil => cases ha
  | cons c t ih =>
    rw [List.countP_cons]
    rcases List.mem_cons.mp ha with rfl | ha₂
    · have hbt : b ∈ t := by
        rcases List.mem_cons.mp hb with h | h
        · exact absurd h.symm hab
        · exact h
      have h1 : 1 ≤ t.countP p := List.countP_pos.mpr ⟨b, hbt, hpb⟩
      have hone : (if p a = true then 1 else 0) = 1 := by simp [hpa]
      omega
    · rcases List.mem_cons.mp hb with rfl | hb₂
      · have h1 : 1 ≤ t.countP p := List.countP_pos.mpr ⟨a, ha₂, hpa⟩
        have hone : (if p b = true then 1 else 0) = 1 := by simp [hpb]
        omega
      · have := ih ha₂ hb₂
        omega

theorem two_le_degreeOf {edges : List Edge} {x : Nat} {e₁ e₂ : Edge}
    (h₁ : e₁ ∈ edges) (h₂ : e₂ ∈ edges) (hne : e₁ ≠ e₂)
    (hi₁ : e₁.emin = x ∨ e₁.emax = x) (hi₂ : e₂.emin = x ∨ e₂.emax = x) :
    2 ≤ degreeOf edges x := by
  rw [degreeOf]
  rcases hi₁ with hm₁ | hm₁ <;> rcases hi₂ with hm₂ | hm₂
  · have := two_le_countP h₁ h₂ hne (p := fun e => e.emin == x)
      (by simp [hm₁]) (by simp [hm₂])
    omega
  · have ha : 1 ≤ edges.countP (fun e => e.emin == x) :=
      List.countP_pos.mpr ⟨e₁, h₁, by simp [hm₁]⟩
    have hb : 1 ≤ edges.countP (fun e => e.emax == x) :=
      List.countP_pos.mpr ⟨e₂, h₂, by simp [hm₂]⟩
    omega
  · have ha : 1 ≤ edges.countP (fun e => e.emin == x) :=
      List.countP_pos.mpr ⟨e₂, h₂, by simp [hm₂]⟩
    have hb : 1 ≤ edges.countP (fun e => e.emax == x) :=
      List.countP_pos.mpr ⟨e₁, h₁, by simp [hm₁]⟩
    omega
  · have := two_le_countP h₁ h₂ hne (p := fun e => e.emax == x)
      (by simp [hm₁]) (by simp [hm₂])
    omega

theorem walk_vertices_not_dead {edges : List Edge} {dead : List Nat}
    (hdeg : ∀ x ∈ dead, degreeOf edges x < 2) :
    ∀ (l : List Nat) (a b : Nat), IsWalk (edgeAdj edges) a b l → l.Nodup →
      a ∉ dead → b ∉ dead → ∀ x ∈ l, x ∉ dead := by
  intro l
  induction l with
  | nil => intro a b _ _ _ _ x hx; cases hx
  | cons v t ih =>
    intro a b hw hnd ha hb x hx
    have hva : v = a := by
      have := hw.2.1
      rw [List.head?_cons] at this
      exact Option.some.inj this
    subst hva
    rcases List.mem_cons.mp hx with rfl | hx₂
    · exact ha
    · cases t with
      | nil => cases hx₂
      | cons w t₂ =>
        have hvw : edgeAdj edges v w := (List.chain'_cons.mp hw.1).1
        have hwt : IsWalk (edgeAdj edges) w b (w :: t₂) := by
          refine ⟨(List.chain'_cons.mp hw.1).2, rfl, ?_⟩
          have := hw.2.2
          rw [List.getLast?_cons_cons] at this
          exact this
        have hw_not : w ∉ dead := by
          cases t₂ with
          | nil =>
            have hwb : w = b := by
              have := hwt.2.2
              rw [List.getLast?_singleton] at this
              exact Option.some.inj this
            rw [hwb]
            exact hb
          | cons z t₃ =>
            have hwz : edgeAdj edges w z := (List.chain'_cons.mp hwt.1).1
            have hvz : v ≠ z := by
              intro hc
              have h1 : v ∉ w :: z :: t₃ := (List.nodup_cons.mp hnd).1
              apply h1
              rw [hc]
              exact List.mem_cons_of_mem _ (List.mem_cons_self _ _)
            have hne : Edge.new v w ≠ Edge.new w z := by
              intro hc
              exact hvz (Edge.new_eq_imp hc)
            have h2 : 2 ≤ degreeOf edges w := by
              refine two_le_degreeOf hvw hwz hne ?_ ?_
              · rcases Nat.le_total v w with h | h
                · right
                  simp [Edge.new, Nat.max_eq_right h]
                · left
                  simp [Edge.new, Nat.min_eq_right h]
              · rcases Nat.le_total w z with h | h
                · left
                  simp [Edge.new, Nat.min_eq_left h]
                · right
                  simp [Edge.new, Nat.max_eq_left h]
            intro hc
            have := hdeg w hc
            omega
        exact ih w b hwt (List.nodup_cons.mp hnd).2 hw_not hb x hx₂

theorem chain'_filter_not_dead {edges : List Edge} {dead : List Nat} :
    ∀ (l : List Nat), l.Chain' (edgeAdj edges) → (∀ x ∈ l, x ∉ dead) →
      l.Chain' (edgeAdj (edges.filter
        (fun e => !(dead.contains e.emin) && !(dead.contains e.emax)))) := by
  intro l
  induction l with
  | nil => intro _ _; exact List.chain'_nil
  | cons x t ih =>
    intro hc hnd
    cases t with
    | nil => exact List.chain'_singleton x
    | cons y t₂ =>
      rw [List.chain'_cons] at hc ⊢
      refine ⟨?_, ih hc.2 (fun z hz => hnd z (List.mem_cons_of_mem _ hz))⟩
      have hx : x ∉ dead := hnd x (List.mem_cons_self _ _)
      have hy : y ∉ dead := hnd y (List.mem_cons_of_mem _ (List.mem_cons_self _ _))
      refine List.mem_filter.mpr ⟨hc.1, ?_⟩
      have hmin : (Edge.new x y).emin ∉ dead := by
        rcases Nat.le_total x y with h | h
        · simpa [Edge.new, Nat.min_eq_left h] using hx
        · simpa [Edge.new, Nat.min_eq_right h] using hy
      have hmax : (Edge.new x y).emax ∉ dead := by
        rcases Nat.le_total x y with h | h
        · simpa [Edge.new, Nat.max_eq_right h] using hy
        · simpa [Edge.new, Nat.max_eq_left h] using hx
      simp [hmin, hmax]

theorem pruneLoop_sublist {Data : Type} (start goal : Nat) :
    ∀ (fuel : Nat) (nodes : List (Nat × Data)) (edges : List Edge),
      (pruneLoop start goal fuel nodes edges).1.Sublist nodes ∧
      (pruneLoop start goal fuel nodes edges).2.Sublist edges := by
  intro fuel
  induction fuel with
  | zero =>
    intro nodes edges
    rw [pruneLoop]
    exact ⟨List.Sublist.refl _, List.Sublist.refl _⟩
  | succ fuel ih =>
    intro nodes edges
    rw [pruneLoop]
    by_cases h : (deadEndsOf start goal nodes edges).isEmpty
    · rw [if_pos h]
      exact ⟨List.Sublist.refl _, List.Sublist.refl _⟩
    · rw [if_neg h]
      obtain ⟨h1, h2⟩ := ih (nodes.filter
          (fun p => !((deadEndsOf start goal nodes edges).contains p.1)))
        (edges.filter (fun e =>
          !((deadEndsOf start goal nodes edges).contains e.emin) &&
          !((deadEndsOf start goal nodes edges).contains e.emax)))
      exact ⟨h1.trans (List.filter_sublist _), h2.trans (List.filter_sublist _)⟩

theorem pruneLoop_keeps_terminal {Data : Type} (start goal : Nat) :
    ∀ (fuel : Nat) (nodes : List (Nat × Data)) (edges : List Edge) (p : Nat × Data),
      p ∈ nodes → (p.1 = start ∨ p.1 = goal) →
      p ∈ (pruneLoop start goal fuel nodes edges).1 := by
  intro fuel
  induction fuel with
  | zero =>
    intro nodes edges p hp _
    rw [pruneLoop]
    exact hp
  | succ fuel ih =>
    intro nodes edges p hp hterm
    rw [pruneLoop]
    by_cases h : (deadEndsOf start goal nodes edges).isEmpty
    · rw [if_pos h]
      exact hp
    · rw [if_neg h]
      refine ih _ _ p (List.mem_filter.mpr ⟨hp, ?_⟩) hterm
      simp
      intro hc
      obtain ⟨_, _, hst, hgl⟩ := mem_deadEndsOf.mp hc
      rcases hterm with h | h
      · exact hst h
      · exact hgl h

theorem pruneLoop_ends {Data : Type} (start goal : Nat) :
    ∀ (fuel : Nat) (nodes : List (Nat × Data)) (edges : List Edge),
      (∀ e ∈ edges, e.emin ∈ nodes.map Prod.fst ∧ e.emax ∈ nodes.map Prod.fst) →
      ∀ e ∈ (pruneLoop start goal fuel nodes edges).2,
        e.emin ∈ (pruneLoop start goal fuel nodes edges).1.map Prod.fst ∧
        e.emax ∈ (pruneLoop start goal fuel nodes edges).1.map Prod.fst := by
  intro fuel
  induction fuel with
  | zero =>
    intro nodes edges hends
    rw [pruneLoop]
    exact hends
  | succ fuel ih =>
    intro nodes edges hends
    rw [pruneLoop]
    by_cases h : (deadEndsOf start goal nodes edges).isEmpty
    · rw [if_pos h]
      exact hends
    · rw [if_neg h]
      refine ih _ _ ?_
      intro e he
      obtain ⟨he₁, he₂⟩ := List.mem_filter.mp he
      simp at he₂
      obtain ⟨hmn, hmx⟩ := hends e he₁
      constructor
      · obtain ⟨p, hp, hpe⟩ := List.mem_map.mp hmn
        refine List.mem_map.mpr ⟨p, List.mem_filter.mpr ⟨hp, ?_⟩, hpe⟩
        simp
        rw [hpe]
        exact he₂.1
      · obtain ⟨p, hp, hpe⟩ := List.mem_map.mp hmx
        refine List.mem_map.mpr ⟨p, List.mem_filter.mpr ⟨hp, ?_⟩, hpe⟩
        simp
        rw [hpe]
        exact he₂.2

theorem pruneLoop_walk {Data : Type} (start goal : Nat) :
    ∀ (fuel : Nat) (nodes : List (Nat × Data)) (edges : List Edge)
      (a b : Nat) (l : List Nat),
      IsWalk (edgeAdj edges) a b l → l.Nodup →
      a ∈ (pruneLoop start goal fuel nodes edges).1.map Prod.fst →
      b ∈ (pruneLoop start goal fuel nodes edges).1.map Prod.fst →
      IsWalk (edgeAdj (pruneLoop start goal fuel nodes edges).2) a b l := by
  intro fuel
  induction fuel with
  | zero =>
    intro nodes edges a b l hw _ _ _
    rw [pruneLoop]
    exact hw
  | succ fuel ih =>
    intro nodes edges a b l hw hnd ha hb
    rw [pruneLoop] at ha hb ⊢
    by_cases h : (deadEndsOf start goal nodes edges).isEmpty
    · rw [if_pos h] at ha hb ⊢
      exact hw
    · rw [if_neg h] at ha hb ⊢
      have hsub := (pruneLoop_sublist start goal fuel
        (nodes.filter (fun p => !((deadEndsOf start goal nodes edges).contains p.1)))
        (edges.filter (fun e =>
          !((deadEndsOf start goal nodes edges).contains e.emin) &&
          !((deadEndsOf start goal nodes edges).contains e.emax)))).1
      have hmem : ∀ x : Nat,
          x ∈ (pruneLoop start goal fuel
            (nodes.filter
              (fun p => !((deadEndsOf start goal nodes edges).contains p.1)))
            (edges.filter (fun e =>
              !((deadEndsOf start goal nodes edges).contains e.emin) &&
              !((deadEndsOf start goal nodes edges).contains e.emax)))).1.map Prod.fst →
          x ∉ deadEndsOf start goal nodes edges := by
        intro x hx
        obtain ⟨p, hp, hpe⟩ := List.mem_map.mp hx
        have hp₂ := hsub.subset hp
        have := (List.mem_filter.mp hp₂).2
        simp at this
        rw [← hpe]
        exact this
      have hdeg : ∀ x ∈ deadEndsOf start goal nodes edges, degreeOf edges x < 2 :=
        fun x hx => (mem_deadEndsOf.mp hx).2.1
      have hnotdead := walk_vertices_not_dead hdeg l a b hw hnd (hmem a ha) (hmem b hb)
      have hw₂ : IsWalk (edgeAdj (edges.filter (fun e =>
          !((deadEndsOf start goal nodes edges).contains e.emin) &&
          !((deadEndsOf start goal nodes edges).contains e.emax)))) a b l :=
        ⟨chain'_filter_not_dead l hw.1 hnotdead, hw.2.1, hw.2.2⟩
      exact ih _ _ a b l hw₂ hnd ha hb

theorem agAdj_adjAdd : ∀ (acc : List (Nat × List Nat)) (k v a b : Nat),
    agAdj (adjAdd acc k v) a b ↔ agAdj acc a b ∨ (a = k ∧ b = v) := by
  intro acc
  induction acc with
  | nil =>
    intro k v a b
    by_cases h : k = a
    · subst h
      simp [agAdj, adjAdd, alLookup]
    · simp [agAdj, adjAdd, alLookup, if_neg h]
      tauto
  | cons p rest ih =>
    intro k v a b
    obtain ⟨k₀, vs⟩ := p
    rw [adjAdd]
    by_cases hk : k₀ = k
    · rw [if_pos hk]
      subst hk
      by_cases ha : k₀ = a
      · subst ha
        show b ∈ (alLookup _ k₀).getD [] ↔ b ∈ (alLookup _ k₀).getD [] ∨ _
        rw [alLookup, if_pos rfl, alLookup, if_pos rfl]
        by_cases hv : v ∈ vs
        · rw [if_pos hv]
          simp only [Option.getD_some]
          constructor
          · intro hb
            exact Or.inl hb
          · intro hb
            rcases hb with hb | ⟨_, rfl⟩
            · exact hb
            · exact hv
        · rw [if_neg hv]
          simp only [Option.getD_some, List.mem_append, List.mem_singleton]
          tauto
      · show b ∈ (alLookup _ a).getD [] ↔ b ∈ (alLookup _ a).getD [] ∨ _
        rw [alLookup, if_neg ha, alLookup, if_neg ha]
        have : ¬ (a = k₀) := fun hc => ha hc.symm
        tauto
    · rw [if_neg hk]
      by_cases ha : k₀ = a
      · subst ha
        show b ∈ (alLookup _ k₀).getD [] ↔ b ∈ (alLookup _ k₀).getD [] ∨ _
        rw [alLookup, if_pos rfl, alLookup, if_pos rfl]
        have : ¬ (k₀ = k) := hk
        constructor
        · intro hb
          exact Or.inl hb
        · intro hb
          rcases hb with hb | ⟨rfl, _⟩
          · exact hb
          · exact absurd rfl this
      · show b ∈ (alLookup _ a).getD [] ↔ b ∈ (alLookup _ a).getD [] ∨ _
        rw [alLookup, if_neg ha, alLookup, if_neg ha]
        exact ih k v a b

theorem agAdj_foldl : ∀ (es : List Edge) (acc : List (Nat × List Nat)) (a b : Nat),
    agAdj (es.foldl (fun m e => adjAdd (adjAdd m e.emin e.emax) e.emax e.emin) acc) a b ↔
      agAdj acc a b ∨
        ∃ e ∈ es, (a = e.emin ∧ b = e.emax) ∨ (a = e.emax ∧ b = e.emin) := by
  intro es
  induction es with
  | nil =>
    intro acc a b
    simp
  | cons e es ih =>
    intro acc a b
    rw [List.foldl_cons, ih]
    rw [agAdj_adjAdd, agAdj_adjAdd]
    constructor
    · intro h
      rcases h with ((h | h) | h) | ⟨e₂, he₂, h⟩
      · exact Or.inl h
      · exact Or.inr ⟨e, List.mem_cons_self _ _, Or.inl h⟩
      · exact Or.inr ⟨e, List.mem_cons_self _ _, Or.inr h⟩
      · exact Or.inr ⟨e₂, List.mem_cons_of_mem _ he₂, h⟩
    · intro h
      rcases h with h | ⟨e₂, he₂, h⟩
      · exact Or.inl (Or.inl (Or.inl h))
      · rcases List.mem_cons.mp he₂ with rfl | he₃
        · rcases h with h | h
          · exact Or.inl (Or.inl (Or.inr h))
          · exact Or.inl (Or.inr h)
        · exact Or.inr ⟨e₂, he₃, h⟩

theorem to_adjacency_agAdj {Data : Type} (g : EdgeSetGraph Data)
    (hcanon : ∀ e ∈ g.edges, e.emin ≤ e.emax) (a b : Nat) :
    agAdj g.to_adjacency_graph.adjs a b ↔ edgeAdj g.edges a b := by
  show agAdj (g.edges.foldl _ []) a b ↔ _
  rw [agAdj_foldl]
  have hnil : ¬ agAdj [] a b := by simp [agAdj, alLookup]
  constructor
  · intro h
    rcases h with h | ⟨e, he, h⟩
    · exact absurd h hnil
    · have hc := hcanon e he
      rcases h with ⟨rfl, rfl⟩ | ⟨rfl, rfl⟩
      · show Edge.new e.emin e.emax ∈ g.edges
        have : Edge.new e.emin e.emax = e := by
          simp [Edge.new, Nat.min_eq_left hc, Nat.max_eq_right hc]
        rw [this]
        exact he
      · show Edge.new e.emax e.emin ∈ g.edges
        have : Edge.new e.emax e.emin = e := by
          simp [Edge.new, Nat.min_eq_right hc, Nat.max_eq_left hc]
        rw [this]
        exact he
  · intro h
    refine Or.inr ⟨Edge.new a b, h, ?_⟩
    rcases Nat.le_total a b with hab | hab
    · left
      simp [Edge.new, Nat.min_eq_left hab, Nat.max_eq_right hab]
    · right
      simp [Edge.new, Nat.max_eq_left hab, Nat.min_eq_right hab]

theorem isWalk_congr {A B : Nat → Nat → Prop} (h : ∀ x y, A x y → B x y)
    {a b : Nat} {l : List Nat} (hw : IsWalk A a b l) : IsWalk B a b l :=
  ⟨List.Chain'.imp h hw.1, hw.2.1, hw.2.2⟩

theorem shortestLen_congr {A B : Nat → Nat → Prop} (h : ∀ x y, A x y ↔ B x y)
    {a b : Nat} {n : Nat} (hs : ShortestLen A a b n) : ShortestLen B a b n := by
  obtain ⟨⟨l, hw, hl⟩, hmin⟩ := hs
  exact ⟨⟨l, isWalk_congr (fun x y => (h x y).mp) hw, hl⟩,
    fun l₂ hw₂ => hmin l₂ (isWalk_congr (fun x y => (h x y).mpr) hw₂)⟩

theorem prune_shortest {Data : Type} {g : EdgeSetGraph Data} {id n : Nat}
    (hid : id ∈ g.prune.com.nodes.map Prod.fst)
    (hstart : g.com.start ∈ g.prune.com.nodes.map Prod.fst)
    (hsh : ShortestLen (edgeAdj g.edges) g.com.start id n) :
    ShortestLen (edgeAdj g.prune.edges) g.com.start id n := by
  have hpn : g.prune.com.nodes =
      (pruneLoop g.com.start g.com.goal (g.com.nodes.length + 1) g.com.nodes g.edges).1 :=
    rfl
  have hpe : g.prune.edges =
      (pruneLoop g.com.start g.com.goal (g.com.nodes.length + 1) g.com.nodes g.edges).2 :=
    rfl
  obtain ⟨⟨l, hw, hl⟩, hmin⟩ := hsh
  obtain ⟨l₂, hw₂, hlen₂, hnd₂, _⟩ := walk_dedup l.length l g.com.start id (le_refl _) hw
  have hge := hmin l₂ hw₂
  have hl₂ : l₂.length = n + 1 := by omega
  rw [hpn] at hid hstart
  have hw₃ := pruneLoop_walk g.com.start g.com.goal (g.com.nodes.length + 1)
    g.com.nodes g.edges g.com.start id l₂ hw₂ hnd₂ hstart hid
  rw [← hpe] at hw₃
  refine ⟨⟨l₂, hw₃, hl₂⟩, ?_⟩
  intro l₃ hw₃'
  refine hmin l₃ (isWalk_congr ?_ hw₃')
  intro x y hxy
  have hsub := (pruneLoop_sublist g.com.start g.com.goal (g.com.nodes.length + 1)
    g.com.nodes g.edges).2
  rw [hpe] at hxy
  exact hsub.subset hxy

theorem buildDistNodes_lookup {Data : Type} :
    ∀ (l : List (Nat × Data)) (dists : List (Nat × Option Int))
      (out : List (Nat × (Data × Int))),
      buildDistNodes l dists = some out →
      ∀ k d, alLookup l k = some d →
        ∃ dv, alLookup dists k = some dv ∧
          alLookup out k = some (d, dv.getD I32MAX) := by
  intro l
  induction l with
  | nil =>
    intro dists out h k d hk
    cases hk
  | cons p rest ih =>
    obtain ⟨id, pd⟩ := p
    intro dists out h k d hk
    rw [buildDistNodes] at h
    cases hdv : alLookup dists id with
    | none => rw [hdv] at h; cases h
    | some dv =>
      rw [hdv] at h
      simp only at h
      cases hr : buildDistNodes rest dists with
      | none => rw [hr] at h; cases h
      | some r =>
        rw [hr] at h
        simp only at h
        injection h with h
        subst h
        rw [alLookup] at hk
        by_cases hid : id = k
        · rw [if_pos hid] at hk
          injection hk with hk
          subst hk
          subst hid
          refine ⟨dv, hdv, ?_⟩
          rw [alLookup, if_pos rfl]
        · rw [if_neg hid] at hk
          obtain ⟨dv₂, hdv₂, hout₂⟩ := ih dists r hr k d hk
          refine ⟨dv₂, hdv₂, ?_⟩
          rw [alLookup, if_neg hid]
          exact hout₂

theorem into_dijkstra_correct {Data : Type} {ag : AdjacencyGraph Data}
    {dg : DijkstraGraph Data}
    (hnd : (ag.com.nodes.map Prod.fst).Nodup)
    (hs : ag.com.start ∈ ag.com.nodes.map Prod.fst)
    (hNlen : (ag.com.nodes.length : Int) < I32MAX)
    (hadjN : ∀ a b, agAdj ag.adjs a b → b ∈ ag.com.nodes.map Prod.fst)
    (hadjsym : ∀ a b, agAdj ag.adjs a b → agAdj ag.adjs b a)
    (hdg : ag.into_dijkstra = some dg) :
    ∀ v ∈ ag.com.nodes.map Prod.fst, ∀ n,
      ShortestLen (agAdj ag.adjs) ag.com.start v n →
      dg.distance v = some (n : Int) := by
  intro v hv n hn
  rw [AdjacencyGraph.into_dijkstra] at hdg
  cases hrun : dijkstraLoop ag.adjs (dijkstraQueueInit (dijkstraInit ag)).length
      (dijkstraInit ag) [] (dijkstraQueueInit (dijkstraInit ag)) with
  | none => rw [hrun] at hdg; cases hdg
  | some dp =>
    obtain ⟨dists, paths⟩ := dp
    rw [hrun] at hdg
    simp only at hdg
    cases hbd : buildDistNodes ag.com.nodes dists with
    | none => rw [hbd] at hdg; cases hdg
    | some nodesOut =>
      rw [hbd] at hdg
      simp only at hdg
      injection hdg with hdg
      subst hdg
      have hkeys0 : (dijkstraInit ag).map Prod.fst = ag.com.nodes.map Prod.fst := by
        rw [dijkstraInit]
        exact map_fst_mapVal _ _
      have hlk0 : ∀ k, alLookup (dijkstraInit ag) k =
          (alLookup ag.com.nodes k).map
            (fun _ => if k = ag.com.start then some (0 : Int) else none) := by
        intro k
        rw [dijkstraInit]
        exact alLookup_mapVal (fun p => if p.1 = ag.com.start then some 0 else none)
          ag.com.nodes k
      have hqkeys0 : (dijkstraQueueInit (dijkstraInit ag)).map Prod.fst =
          (dijkstraInit ag).map Prod.fst := by
        rw [dijkstraQueueInit]
        exact map_fst_mapVal _ _
      have hnd0 : ((dijkstraInit ag).map Prod.fst).Nodup := by
        rw [hkeys0]
        exact hnd
      have hval0 : ∀ k m, alLookup (dijkstraInit ag) k = some (some m) →
          k = ag.com.start ∧ m = 0 := by
        intro k m h
        rw [hlk0 k] at h
        cases halv : alLookup ag.com.nodes k with
        | none => rw [halv] at h; cases h
        | some d =>
          rw [halv] at h
          simp only [Option.map_some'] at h
          injection h with h
          by_cases hks : k = ag.com.start
          · rw [if_pos hks] at h
            injection h with h
            exact ⟨hks, h.symm⟩
          · rw [if_neg hks] at h
            cases h
      have hinv0 : DijkInv ag.adjs ag.com.start (ag.com.nodes.map Prod.fst)
          (dijkstraInit ag) (dijkstraQueueInit (dijkstraInit ag)) := by
        refine ⟨hkeys0, ?_, ?_, ?_, ?_, ?_, ?_, ?_⟩
        · rw [hqkeys0]
          exact hnd0
        · intro e he
          rw [dijkstraQueueInit] at he
          obtain ⟨p, hp, hpe⟩ := List.mem_map.mp he
          have hlkp : alLookup (dijkstraInit ag) p.1 = some p.2 :=
            alLookup_of_mem_nodup hnd0 hp
          constructor
          · rw [← hpe]
            show p.1 ∈ _
            rw [← hkeys0]
            exact List.mem_map.mpr ⟨p, hp, rfl⟩
          · refine ⟨p.2, ?_, ?_⟩
            · rw [← hpe]
              exact hlkp
            · rw [← hpe]
        · intro w m h
          obtain ⟨_, hm⟩ := hval0 w m h
          rw [hm]
        · rw [hlk0]
          rw [if_pos rfl]
          obtain ⟨p, hp, hpe⟩ := List.mem_map.mp hs
          have : alLookup ag.com.nodes ag.com.start = some p.2 := by
            rw [← hpe]
            exact alLookup_of_mem_nodup hnd hp
          rw [this]
          rfl
        · intro w hwN hwq nw hnw
          exfalso
          apply hwq
          rw [hqkeys0, hkeys0]
          exact hwN
        · intro w m h nw hnw
          obtain ⟨hws, hm⟩ := hval0 w m h
          subst hws
          have : nw = 0 :=
            shortestLen_unique hnw (shortestLen_self _ _)
          rw [this, hm]
          simp
        · intro u huN huq nu hnu w hadj
          exfalso
          apply huq
          rw [hqkeys0, hkeys0]
          exact huN
      have hNlen' : ((ag.com.nodes.map Prod.fst).length : Int) < I32MAX := by
        rw [List.length_map]
        exact hNlen
      have hfin := dijkstraLoop_dijk hadjN hadjsym hs hNlen'
        (dijkstraQueueInit (dijkstraInit ag)).length (dijkstraInit ag) []
        (dijkstraQueueInit (dijkstraInit ag)) (dists, paths) hrun (le_refl _)
        hinv0 v hv n hn
      obtain ⟨p, hp, hpe⟩ := List.mem_map.mp hv
      have hlkv : alLookup ag.com.nodes v = some p.2 := by
        rw [← hpe]
        exact alLookup_of_mem_nodup hnd hp
      obtain ⟨dv, hdv, hout⟩ := buildDistNodes_lookup ag.com.nodes dists nodesOut
        hbd v p.2 hlkv
      have : dv = some (n : Int) := by
        rw [hfin] at hdv
        exact (Option.some.inj hdv).symm
      subst this
      show (alLookup nodesOut v).map Prod.snd = _
      rw [hout]
      rfl

set_option maxRecDepth 2000 in
/-- C5: for the unit-weight graphs of this program, the distance the solver
reports (`distance id` on the `DijkstraGraph` produced by
`into_dijkstra` on the pruned graph) for a node that survives pruning and is
reachable from the start equals the length of the shortest edge-path from
start to that node in the original, unpruned graph.  The hypotheses state the
wellformedness invariants that `extract_graph` guarantees for the graphs it
builds: node keys are distinct, edges are canonical (`min ≤ max`, as
`Edge::new` produces), edge endpoints are nodes, the start is a node, and
there are fewer than `i32::MAX` nodes. -/
theorem C5_solver_shortest_distance {Data : Type} {g : EdgeSetGraph Data}
    {dg : DijkstraGraph Data} {id n : Nat}
    (hnd : (g.com.nodes.map Prod.fst).Nodup)
    (hcanon : ∀ e ∈ g.edges, e.emin ≤ e.emax)
    (hends : ∀ e ∈ g.edges, e.emin ∈ g.com.nodes.map Prod.fst ∧
      e.emax ∈ g.com.nodes.map Prod.fst)
    (hstart : g.com.start ∈ g.com.nodes.map Prod.fst)
    (hlen : (g.com.nodes.length : Int) < I32MAX)
    (hid : id ∈ g.prune.com.nodes.map Prod.fst)
    (hsh : ShortestLen (edgeAdj g.edges) g.com.start id n)
    (hdg : g.prune.to_adjacency_graph.into_dijkstra = some dg) :
    dg.distance id = some (n : Int) := by
  have hpn : g.prune.com.nodes =
      (pruneLoop g.com.start g.com.goal (g.com.nodes.length + 1) g.com.nodes g.edges).1 :=
    rfl
  have hpe : g.prune.edges =
      (pruneLoop g.com.start g.com.goal (g.com.nodes.length + 1) g.com.nodes g.edges).2 :=
    rfl
  have hsubn : g.prune.com.nodes.Sublist g.com.nodes := by
    rw [hpn]
    exact (pruneLoop_sublist _ _ _ _ _).1
  have hsube : g.prune.edges.Sublist g.edges := by
    rw [hpe]
    exact (pruneLoop_sublist _ _ _ _ _).2
  have hnd' : (g.prune.com.nodes.map Prod.fst).Nodup :=
    (hsubn.map Prod.fst).nodup hnd
  have hcanon' : ∀ e ∈ g.prune.edges, e.emin ≤ e.emax :=
    fun e he => hcanon e (hsube.subset he)
  have hends' : ∀ e ∈ g.prune.edges,
      e.emin ∈ g.prune.com.nodes.map Prod.fst ∧
      e.emax ∈ g.prune.com.nodes.map Prod.fst := by
    rw [hpn, hpe]
    exact pruneLoop_ends _ _ _ _ _ hends
  have hstart' : g.com.start ∈ g.prune.com.nodes.map Prod.fst := by
    obtain ⟨p, hp, hpf⟩ := List.mem_map.mp hstart
    rw [hpn]
    refine List.mem_map.mpr ⟨p, ?_, hpf⟩
    exact pruneLoop_keeps_terminal _ _ _ _ _ p hp (Or.inl hpf)
  have hlen' : (g.prune.com.nodes.length : Int) < I32MAX := by
    have := hsubn.length_le
    have h₂ : (g.prune.com.nodes.length : Int) ≤ (g.com.nodes.length : Int) := by
      exact_mod_cast this
    omega
  have hiff : ∀ a b, edgeAdj g.prune.edges a b ↔
      agAdj g.prune.to_adjacency_graph.adjs a b :=
    fun a b => (to_adjacency_agAdj g.prune hcanon' a b).symm
  have hadjN : ∀ a b, agAdj g.prune.to_adjacency_graph.adjs a b →
      b ∈ g.prune.com.nodes.map Prod.fst := by
    intro a b h
    have he : Edge.new a b ∈ g.prune.edges := (hiff a b).mpr h
    obtain ⟨hmn, hmx⟩ := hends' _ he
    rcases Nat.le_total a b with hab | hab
    · have : (Edge.new a b).emax = b := by
        simp [Edge.new, Nat.max_eq_right hab]
      rw [← this]
      exact hmx
    · have : (Edge.new a b).emin = b := by
        simp [Edge.new, Nat.min_eq_right hab]
      rw [← this]
      exact hmn
  have hadjsym : ∀ a b, agAdj g.prune.to_adjacency_graph.adjs a b →
      agAdj g.prune.to_adjacency_graph.adjs b a := by
    intro a b h
    apply (hiff b a).mp
    show Edge.new b a ∈ _
    rw [Edge.new_comm]
    exact (hiff a b).mpr h
  have hsh' := prune_shortest hid hstart' hsh
  have hsh'' : ShortestLen (agAdj g.prune.to_adjacency_graph.adjs) g.com.start id n :=
    shortestLen_congr hiff hsh'
  have hnd'' : ((g.prune.to_adjacency_graph.com.nodes).map Prod.fst).Nodup := hnd'
  have hstart'' : g.prune.to_adjacency_graph.com.start ∈
      g.prune.to_adjacency_graph.com.nodes.map Prod.fst := hstart'
  have hlen'' : ((g.prune.to_adjacency_graph.com.nodes).length : Int) < I32MAX := hlen'
  have hid'' : id ∈ g.prune.to_adjacency_graph.com.nodes.map Prod.fst := hid
  have hsh₃ : ShortestLen (agAdj g.prune.to_adjacency_graph.adjs)
      g.prune.to_adjacency_graph.com.start id n := hsh''
  exact into_dijkstra_correct hnd'' hstart'' hlen'' hadjN hadjsym hdg id hid'' n hsh₃

/-- Path graph on nodes 1-2-3 with start 1 and goal 3, for exercising the
solver pipeline on a concrete input. -/
def gC5 : EdgeSetGraph Unit :=
  ⟨⟨[(1, ()), (2, ()), (3, ())], 1, 3⟩, [⟨1, 2⟩, ⟨2, 3⟩]⟩

/-- The solver output on [gC5]: stored distances 0, 1, 2 and predecessor
links 2 ← 1, 3 ← 2. -/
def dgC5 : DijkstraGraph Unit :=
  ⟨⟨⟨[(1, ((), 0)), (2, ((), 1)), (3, ((), 2))], 1, 3⟩,
    [(1, [2]), (2, [1, 3]), (3, [2])]⟩, [(2, 1), (3, 2)]⟩

/-- Witness for C5 on the concrete path graph [gC5]: the goal node 3 is two
edges from the start, and the solver reports distance 2. -/
theorem C5_witness_path_graph : dgC5.distance 3 = some ((2 : Nat) : Int) := by
  have hshW : ShortestLen (edgeAdj gC5.edges) 1 3 2 := by
    refine ⟨⟨[1, 2, 3], ⟨?_, rfl, rfl⟩, rfl⟩, ?_⟩
    · rw [List.chain'_cons, List.chain'_cons]
      refine ⟨by decide, by decide, List.chain'_singleton 3⟩
    · intro l hl
      obtain ⟨hc, hh, hg⟩ := hl
      cases l with
      | nil => simp at hh
      | cons x t =>
        cases t with
        | nil =>
          have hx1 : x = 1 := by simpa using hh
          have hx3 : x = 3 := by simpa using hg
          omega
        | cons y t₂ =>
          cases t₂ with
          | nil =>
            have hx1 : x = 1 := by simpa using hh
            have hy3 : y = 3 := by simpa using hg
            subst hx1
            subst hy3
            have hadj : edgeAdj gC5.edges 1 3 := (List.chain'_cons.mp hc).1
            exact absurd hadj (by decide)
          | cons z t₃ =>
            simp only [List.length_cons]
            omega
  exact C5_solver_shortest_distance (by decide) (by decide) (by decide) (by decide)
    (by decide) (by decide) hshW (by decide)
